import Mathlib

/-!
# Verification of the brainfuck pipeline (`src/brainfuck.rs`)

Shallow embedding of the parser, peephole optimizer, tree-walking
interpreter and IR emitter of the repository, together with theorems
settling the specification claims.  Machine integers are modelled as
`Nat` with explicit wraparound (`% 2^64` for `usize`, `% 256` for `u8`);
the i32 emission counter is modelled as `Int`.
-/

namespace BF

/-- Source position attached to every symbol and AST node
(`DebugInfo`, brainfuck.rs lines 82–88). -/
structure DebugInfo where
  directory : String
  file : String
  line : Nat
  column : Nat
deriving DecidableEq, Repr

/-- Lexical symbols (`Symbol`, brainfuck.rs lines 70–80). -/
inductive Symbol where
  | incPtr (d : DebugInfo)
  | decPtr (d : DebugInfo)
  | increment (d : DebugInfo)
  | decrement (d : DebugInfo)
  | output (d : DebugInfo)
  | input (d : DebugInfo)
  | openBlock (d : DebugInfo)
  | closeBlock (d : DebugInfo)
deriving DecidableEq, Repr

/-- AST nodes (`Node`, brainfuck.rs lines 103–112).  `incPtr`/`decPtr`
carry a `usize` count, `increment`/`decrement` a `u8` count; both are
modelled as `Nat` (wraparound is applied explicitly where the source
performs `wrapping_add`/`wrapping_sub`). -/
inductive Node where
  | loop (body : List Node) (d : DebugInfo)
  | incPtr (v : Nat) (d : DebugInfo)
  | decPtr (v : Nat) (d : DebugInfo)
  | increment (v : Nat) (d : DebugInfo)
  | decrement (v : Nat) (d : DebugInfo)
  | output (d : DebugInfo)
  | input (d : DebugInfo)
deriving Repr

/-- Outcome of parsing one sequence of sibling nodes — the body of the
`while` loops in `Ast::parse` and the `OpenBlock` arm of `Ast::add_node`
(brainfuck.rs lines 120–160, mirroring `ParseResult`, lines 95–101).
`eof`: the symbol queue ran out after producing `nodes`;
`close`: a `CloseBlock` was consumed at this level, with the unconsumed
symbols `rest`; `err`: an `UnmatchedLoop` fault propagated up. -/
inductive BodyRes where
  | eof (nodes : List Node)
  | close (nodes : List Node) (d : DebugInfo) (rest : List Symbol)
  | err (d : DebugInfo)

/-- Push one freshly parsed leaf or loop node in front of the rest of the
level's parse (the `nodes.push_back(...)` calls of `Ast::add_node`). -/
def consNode (n : Node) : BodyRes → BodyRes
  | .eof ns => .eof (n :: ns)
  | .close ns d rest => .close (n :: ns) d rest
  | .err d => .err d

theorem consNode_close_len {n : Node} {r : BodyRes} {k : Nat}
    (hp : ∀ ns dd rest, r = .close ns dd rest → rest.length < k) :
    ∀ ns dd rest, consNode n r = .close ns dd rest → rest.length < k + 1 := by
  intro ns dd rest h
  cases r with
  | eof ms => simp [consNode] at h
  | err e => simp [consNode] at h
  | close ms de re =>
    simp only [consNode] at h
    cases h
    have := hp ms dd rest rfl
    omega

/-- One nesting level of `Ast::add_node` (brainfuck.rs lines 137–188),
iterated as by the `while` loops of `Ast::parse` and the `OpenBlock` arm:
pop symbols, turning leaves into unit-count nodes, recursing into `[`,
stopping at `]` or end of input.  Exhausting the input inside an open
loop yields the *opening* bracket's position.  The attached invariant
(a `close` result strictly consumed symbols) justifies termination. -/
def parseBodyA :
    (syms : List Symbol) →
    {r : BodyRes // ∀ ns dd rest, r = BodyRes.close ns dd rest → rest.length < syms.length}
  | [] => ⟨.eof [], by simp⟩
  | Symbol.openBlock d :: rest =>
    match parseBodyA rest with
    | ⟨.eof _, _⟩ => ⟨.err d, by simp⟩
    | ⟨.err d', _⟩ => ⟨.err d', by simp⟩
    | ⟨.close body dd rest', p1⟩ =>
      match parseBodyA rest' with
      | ⟨.eof ns, _⟩ => ⟨.eof (Node.loop body d :: ns), by simp⟩
      | ⟨.err d', _⟩ => ⟨.err d', by simp⟩
      | ⟨.close ns d₂ r₂, p2⟩ =>
        ⟨.close (Node.loop body d :: ns) d₂ r₂, by
          intro a b c h
          cases h
          have h1 := p1 body dd rest' rfl
          have h2 := p2 ns d₂ r₂ rfl
          simp only [List.length_cons]
          omega⟩
  | Symbol.closeBlock d :: rest =>
    ⟨.close [] d rest, by intro a b c h; cases h; simp⟩
  | Symbol.incPtr d :: rest =>
    ⟨consNode (Node.incPtr 1 d) (parseBodyA rest).1, consNode_close_len (parseBodyA rest).2⟩
  | Symbol.decPtr d :: rest =>
    ⟨consNode (Node.decPtr 1 d) (parseBodyA rest).1, consNode_close_len (parseBodyA rest).2⟩
  | Symbol.increment d :: rest =>
    ⟨consNode (Node.increment 1 d) (parseBodyA rest).1, consNode_close_len (parseBodyA rest).2⟩
  | Symbol.decrement d :: rest =>
    ⟨consNode (Node.decrement 1 d) (parseBodyA rest).1, consNode_close_len (parseBodyA rest).2⟩
  | Symbol.output d :: rest =>
    ⟨consNode (Node.output d) (parseBodyA rest).1, consNode_close_len (parseBodyA rest).2⟩
  | Symbol.input d :: rest =>
    ⟨consNode (Node.input d) (parseBodyA rest).1, consNode_close_len (parseBodyA rest).2⟩
termination_by syms => syms.length
decreasing_by
  all_goals simp only [List.length_cons]
  · omega
  · have := p1 body dd rest' rfl; omega
  all_goals omega

def parseBody (syms : List Symbol) : BodyRes := (parseBodyA syms).1

/-- `Ast::parse` (brainfuck.rs lines 120–135): loop `add_node` at the top
level; a `CloseLoop` surfacing there or an `UnmatchedLoop` both abort the
whole parse as `ParseError::UnmatchedLoop` with the recorded position. -/
def Ast.parse (syms : List Symbol) : Except DebugInfo (List Node) :=
  match parseBody syms with
  | .eof ns => .ok ns
  | .close _ d _ => .error d
  | .err d => .error d

/-- Reference bracket matcher, written to the spec's words (§4.2/§8): a
stack holds the positions of the pending open brackets; a `]` with an
empty stack is reported at its own position, and end of input with a
nonempty stack is reported at the innermost unmatched open bracket's
position.  `none` means no unmatched-loop fault.  Used to compare
`Ast.parse`'s error behaviour against the specification. -/
def scanBrackets : List Symbol → List DebugInfo → Option DebugInfo
  | [], [] => none
  | [], d :: _ => some d
  | Symbol.openBlock d :: rest, stk => scanBrackets rest (d :: stk)
  | Symbol.closeBlock d :: _, [] => some d
  | Symbol.closeBlock _ :: rest, _ :: stk => scanBrackets rest stk
  | Symbol.incPtr _ :: rest, stk => scanBrackets rest stk
  | Symbol.decPtr _ :: rest, stk => scanBrackets rest stk
  | Symbol.increment _ :: rest, stk => scanBrackets rest stk
  | Symbol.decrement _ :: rest, stk => scanBrackets rest stk
  | Symbol.output _ :: rest, stk => scanBrackets rest stk
  | Symbol.input _ :: rest, stk => scanBrackets rest stk

/-- `usize` wraparound modulus (64-bit target; the emitted IR uses `i64`). -/
def USIZE : Nat := 2 ^ 64

/-- `u8` wraparound modulus. -/
def U8 : Nat := 256

/-- The `IncPtr` arm's run-collection loop of `Ast::optimize_nodes`
(brainfuck.rs lines 204–211): pop further `IncPtr` nodes while they head
the queue, accumulating the count with `usize::wrapping_add`. -/
def collectIncPtr : Nat → List Node → Nat × List Node
  | value, Node.incPtr v _ :: rest => collectIncPtr ((value + v) % USIZE) rest
  | value, rest => (value, rest)

/-- The `DecPtr` arm's run-collection loop (brainfuck.rs lines 212–219). -/
def collectDecPtr : Nat → List Node → Nat × List Node
  | value, Node.decPtr v _ :: rest => collectDecPtr ((value + v) % USIZE) rest
  | value, rest => (value, rest)

/-- The `Increment` arm's run-collection loop (brainfuck.rs lines
220–227), accumulating with `u8::wrapping_add`. -/
def collectIncrement : Nat → List Node → Nat × List Node
  | value, Node.increment v _ :: rest => collectIncrement ((value + v) % U8) rest
  | value, rest => (value, rest)

/-- The `Decrement` arm's run-collection loop (brainfuck.rs lines 228–235). -/
def collectDecrement : Nat → List Node → Nat × List Node
  | value, Node.decrement v _ :: rest => collectDecrement ((value + v) % U8) rest
  | value, rest => (value, rest)

theorem collectIncPtr_sizeOf : ∀ (value : Nat) (l : List Node),
    sizeOf (collectIncPtr value l).2 ≤ sizeOf l := by
  intro value l
  induction l generalizing value with
  | nil => simp [collectIncPtr]
  | cons n rest ih =>
    cases n with
    | incPtr v d =>
      rw [collectIncPtr]
      have := ih ((value + v) % USIZE)
      simp only [List.cons.sizeOf_spec]
      omega
    | loop b d => simp [collectIncPtr]
    | decPtr v d => simp [collectIncPtr]
    | increment v d => simp [collectIncPtr]
    | decrement v d => simp [collectIncPtr]
    | output d => simp [collectIncPtr]
    | input d => simp [collectIncPtr]

theorem collectDecPtr_sizeOf : ∀ (value : Nat) (l : List Node),
    sizeOf (collectDecPtr value l).2 ≤ sizeOf l := by
  intro value l
  induction l generalizing value with
  | nil => simp [collectDecPtr]
  | cons n rest ih =>
    cases n with
    | decPtr v d =>
      rw [collectDecPtr]
      have := ih ((value + v) % USIZE)
      simp only [List.cons.sizeOf_spec]
      omega
    | loop b d => simp [collectDecPtr]
    | incPtr v d => simp [collectDecPtr]
    | increment v d => simp [collectDecPtr]
    | decrement v d => simp [collectDecPtr]
    | output d => simp [collectDecPtr]
    | input d => simp [collectDecPtr]

theorem collectIncrement_sizeOf : ∀ (value : Nat) (l : List Node),
    sizeOf (collectIncrement value l).2 ≤ sizeOf l := by
  intro value l
  induction l generalizing value with
  | nil => simp [collectIncrement]
  | cons n rest ih =>
    cases n with
    | increment v d =>
      rw [collectIncrement]
      have := ih ((value + v) % U8)
      simp only [List.cons.sizeOf_spec]
      omega
    | loop b d => simp [collectIncrement]
    | incPtr v d => simp [collectIncrement]
    | decPtr v d => simp [collectIncrement]
    | decrement v d => simp [collectIncrement]
    | output d => simp [collectIncrement]
    | input d => simp [collectIncrement]

theorem collectDecrement_sizeOf : ∀ (value : Nat) (l : List Node),
    sizeOf (collectDecrement value l).2 ≤ sizeOf l := by
  intro value l
  induction l generalizing value with
  | nil => simp [collectDecrement]
  | cons n rest ih =>
    cases n with
    | decrement v d =>
      rw [collectDecrement]
      have := ih ((value + v) % U8)
      simp only [List.cons.sizeOf_spec]
      omega
    | loop b d => simp [collectDecrement]
    | incPtr v d => simp [collectDecrement]
    | decPtr v d => simp [collectDecrement]
    | increment v d => simp [collectDecrement]
    | output d => simp [collectDecrement]
    | input d => simp [collectDecrement]

/-- `Ast::optimize_nodes` (brainfuck.rs lines 196–244): pop nodes from
the queue; a `Loop` gets its body optimized recursively (post-order); a
delta node seeds a wraparound accumulator (the first node of the run
supplying the surviving count seed and `DebugInfo`) and swallows the
following same-kind run; `Output`/`Input` pass through unmerged. -/
def optimize_nodes : List Node → List Node
  | [] => []
  | Node.loop body d :: rest => Node.loop (optimize_nodes body) d :: optimize_nodes rest
  | Node.incPtr v d :: rest =>
    Node.incPtr (collectIncPtr v rest).1 d :: optimize_nodes (collectIncPtr v rest).2
  | Node.decPtr v d :: rest =>
    Node.decPtr (collectDecPtr v rest).1 d :: optimize_nodes (collectDecPtr v rest).2
  | Node.increment v d :: rest =>
    Node.increment (collectIncrement v rest).1 d :: optimize_nodes (collectIncrement v rest).2
  | Node.decrement v d :: rest =>
    Node.decrement (collectDecrement v rest).1 d :: optimize_nodes (collectDecrement v rest).2
  | Node.output d :: rest => Node.output d :: optimize_nodes rest
  | Node.input d :: rest => Node.input d :: optimize_nodes rest
termination_by ns => sizeOf ns
decreasing_by
  all_goals simp only [List.cons.sizeOf_spec, Node.loop.sizeOf_spec]
  · omega
  · omega
  · have := collectIncPtr_sizeOf v rest; omega
  · have := collectDecPtr_sizeOf v rest; omega
  · have := collectIncrement_sizeOf v rest; omega
  · have := collectDecrement_sizeOf v rest; omega
  · omega
  · omega

/-- Constructor tags of `Node`, used to reason about which kind of node
heads the queue during run collection. -/
inductive NK where
  | loop | incPtr | decPtr | increment | decrement | output | input
deriving DecidableEq, Repr

def kindOf : Node → NK
  | .loop _ _ => .loop
  | .incPtr _ _ => .incPtr
  | .decPtr _ _ => .decPtr
  | .increment _ _ => .increment
  | .decrement _ _ => .decrement
  | .output _ => .output
  | .input _ => .input

def headKind (l : List Node) : Option NK := l.head?.map kindOf

/-- Interpreter state (`ProgramState`, brainfuck.rs lines 252–256),
extended with the externally observable standard streams: `input` is the
queue of bytes standard input will deliver, `output` the bytes written so
far.  Memory cells are `u8` values modelled as `Nat`. -/
structure InterpState where
  ptr : Nat
  mem : List Nat
  mem_size : Nat
  input : List Nat
  output : List Nat
deriving DecidableEq, Repr

/-- `ProgramState::new` (brainfuck.rs lines 258–270): zeroed memory of
`mem_size` cells, cursor centered at `mem_size / 2`. -/
def InterpState.new (mem_size : Nat) (input : List Nat) : InterpState :=
  { ptr := mem_size / 2
    mem := List.replicate mem_size 0
    mem_size := mem_size
    input := input
    output := [] }

/-- `ProgramState::is_oob` (brainfuck.rs lines 272–274): `ptr >= mem_size`. -/
def InterpState.is_oob (s : InterpState) : Bool := s.mem_size ≤ s.ptr

/-- `libc::getchar()` (used at brainfuck.rs line 345): pop one byte from
standard input; at end of input C's `getchar` returns `-1` (`EOF`). -/
def getchar : List Nat → Int × List Nat
  | [] => (-1, [])
  | b :: rest => ((b : Int), rest)

/-- The `val as u8` truncating cast of an `i32` (brainfuck.rs line 349). -/
def asU8 (val : Int) : Nat := (val % 256).toNat

/-- Result of `Program::exec_nodes`.  `oob` carries the faulting node's
`DebugInfo` (the `ExecError::OutOfBounds` payload) together with the
state at the fault, keeping the already-performed stream effects
observable; `timeout` is the fuel-exhaustion marker of the embedding
(the Rust interpreter simply keeps running on such programs — fuel is
spent only on loop iterations). -/
inductive ExecResult where
  | ok (s : InterpState)
  | oob (d : DebugInfo) (s : InterpState)
  | timeout
deriving DecidableEq, Repr

mutual

/-- One arm of the `for node in nodes` match of `Program::exec_nodes`
(brainfuck.rs lines 320–365).  `incPtr`/`decPtr` wrap the cursor with no
bounds check; `increment`/`decrement`/`output` bounds-check then touch
memory; `input` reads standard input *before* the bounds check; `loop`
bounds-checks on entry and delegates to the iteration loop. -/
def execNode (fuel : Nat) (n : Node) (s : InterpState) : ExecResult :=
  match n with
  | Node.incPtr v _ => .ok { s with ptr := (s.ptr + v) % USIZE }
  | Node.decPtr v _ => .ok { s with ptr := (s.ptr + (USIZE - v % USIZE)) % USIZE }
  | Node.increment v d =>
    if s.is_oob then .oob d s
    else .ok { s with mem := s.mem.set s.ptr ((s.mem.getD s.ptr 0 + v) % U8) }
  | Node.decrement v d =>
    if s.is_oob then .oob d s
    else .ok { s with mem := s.mem.set s.ptr ((s.mem.getD s.ptr 0 + (U8 - v % U8)) % U8) }
  | Node.output d =>
    if s.is_oob then .oob d s
    else .ok { s with output := s.output ++ [s.mem.getD s.ptr 0] }
  | Node.input d =>
    let r := getchar s.input
    if s.is_oob then .oob d { s with input := r.2 }
    else .ok { s with input := r.2, mem := s.mem.set s.ptr (asU8 r.1) }
  | Node.loop body d =>
    if s.is_oob then .oob d s
    else execLoop fuel body d s
termination_by (fuel, sizeOf n, 0)

/-- The `while state.mem[state.ptr] != 0` iteration of the `Loop` arm
(brainfuck.rs lines 355–363): run the body, re-check bounds, repeat;
one unit of fuel per iteration. -/
def execLoop (fuel : Nat) (body : List Node) (d : DebugInfo) (s : InterpState) : ExecResult :=
  match fuel with
  | 0 => .timeout
  | fuel + 1 =>
    if s.mem.getD s.ptr 0 ≠ 0 then
      match execNodes fuel body s with
      | .ok s' =>
        if s'.is_oob then .oob d s'
        else execLoop fuel body d s'
      | r => r
    else .ok s
termination_by (fuel, sizeOf body, 2)

/-- `Program::exec_nodes` (brainfuck.rs lines 316–369): execute the node
sequence left to right, aborting at the first fault. -/
def execNodes (fuel : Nat) (ns : List Node) (s : InterpState) : ExecResult :=
  match ns with
  | [] => .ok s
  | n :: rest =>
    match execNode fuel n s with
    | .ok s' => execNodes fuel rest s'
    | r => r
termination_by (fuel, sizeOf ns, 1)

end

/-- `Program::exec` via `Brainfuck::exec` (brainfuck.rs lines 61–63,
311–314): run the optimized AST on a fresh state. -/
def Program.exec (fuel : Nat) (ns : List Node) (mem_size : Nat) (input : List Nat) : ExecResult :=
  execNodes fuel ns (InterpState.new mem_size input)

/-- Loop-nesting depth of an AST: a `Loop` is one deeper than its body. -/
def astDepth : List Node → Nat
  | [] => 0
  | Node.loop body _ :: rest => max (astDepth body + 1) (astDepth rest)
  | Node.incPtr _ _ :: rest => astDepth rest
  | Node.decPtr _ _ :: rest => astDepth rest
  | Node.increment _ _ :: rest => astDepth rest
  | Node.decrement _ _ :: rest => astDepth rest
  | Node.output _ :: rest => astDepth rest
  | Node.input _ :: rest => astDepth rest

/-- Depth contribution of one symbol: `[` opens a level, `]` closes one. -/
def symDelta : Symbol → Int
  | Symbol.openBlock _ => 1
  | Symbol.closeBlock _ => -1
  | _ => 0

/-- Maximum bracket nesting depth reached while scanning `syms` starting
at running depth `r`. -/
def maxDepth : Int → List Symbol → Int
  | r, [] => r
  | r, s :: rest => max r (maxDepth (r + symDelta s) rest)

/-- The character list of `Nat.repr n`: `['0']` for zero, otherwise the
base-10 digits, most significant first. -/
def reprChars (n : Nat) : List Char :=
  if n = 0 then ['0'] else ((Nat.digits 10 n).map Nat.digitChar).reverse

/-- `IrState` (brainfuck.rs lines 277–295): the shared monotonic counter
minting SSA identifiers and block labels.  The `i32` counter is modelled
as `Int` (overflowing it is a Rust arithmetic error, not intended
behaviour). -/
structure IrState where
  next_label : Int
deriving DecidableEq, Repr

/-- `IrState::new` (lines 282–284). -/
def IrState.new : IrState := { next_label := 0 }

/-- The name minted for an identifier at counter value `n` (`%i{n}`). -/
def mkIdent (n : Int) : String := "%i" ++ Int.repr n

/-- The name minted for a block label at counter value `n` (`l{n}`). -/
def mkLabel (n : Int) : String := "l" ++ Int.repr n

/-- `IrState::ident` (lines 286–289): pre-increment, then format. -/
def IrState.ident (s : IrState) : String × IrState :=
  (mkIdent (s.next_label + 1), { next_label := s.next_label + 1 })

/-- `IrState::label` (lines 291–294): pre-increment, then format. -/
def IrState.label (s : IrState) : String × IrState :=
  (mkLabel (s.next_label + 1), { next_label := s.next_label + 1 })

/-- `Program::gen_ir_nodes` (brainfuck.rs lines 395–536): append each
node's IR template to the accumulator `ir`, threading the minting state;
each template transcribed from the `format!` raw strings of the source
(`\x7b`/`\x7d` are literal braces). -/
def gen_ir_nodes (mem_size : Nat) : String → IrState → List Node → String × IrState
  | ir, st, [] => (ir, st)
  | ir, st, Node.incPtr v _ :: rest =>
    let p0 := st.ident
    let p1 := p0.2.ident
    let r := "\n    " ++ p0.1 ++ " = load atomic i64, i64* %ptr monotonic, align 1 ; Increment Pointer\n    "
      ++ p1.1 ++ " = add i64 " ++ p0.1 ++ ", " ++ toString v
      ++ "\n    store atomic i64 " ++ p1.1 ++ ", i64* %ptr monotonic, align 1"
    gen_ir_nodes mem_size (ir ++ r) p1.2 rest
  | ir, st, Node.decPtr v _ :: rest =>
    let p0 := st.ident
    let p1 := p0.2.ident
    let r := "\n    " ++ p0.1 ++ " = load atomic i64, i64* %ptr monotonic, align 1 ; Decrement Pointer\n    "
      ++ p1.1 ++ " = sub i64 " ++ p0.1 ++ ", " ++ toString v
      ++ "\n    store atomic i64 " ++ p1.1 ++ ", i64* %ptr monotonic, align 1"
    gen_ir_nodes mem_size (ir ++ r) p1.2 rest
  | ir, st, Node.increment v _ :: rest =>
    let p0 := st.ident
    let p1 := p0.2.ident
    let p2 := p1.2.ident
    let p3 := p2.2.ident
    let r := "\n    " ++ p0.1 ++ " = load atomic i64, i64* %ptr monotonic, align 1 ; Increment\n    "
      ++ p1.1 ++ " = getelementptr [" ++ toString mem_size ++ " x i8], [" ++ toString mem_size
      ++ " x i8]* @mem, i64 0, i64 " ++ p0.1 ++ "\n    "
      ++ p2.1 ++ " = load atomic volatile i8, i8* " ++ p1.1 ++ " monotonic, align 1\n    "
      ++ p3.1 ++ " = add i8 " ++ p2.1 ++ ", " ++ toString v
      ++ "\n    store atomic volatile i8 " ++ p3.1 ++ ", i8* " ++ p1.1 ++ " monotonic, align 1"
    gen_ir_nodes mem_size (ir ++ r) p3.2 rest
  | ir, st, Node.decrement v _ :: rest =>
    let p0 := st.ident
    let p1 := p0.2.ident
    let p2 := p1.2.ident
    let p3 := p2.2.ident
    let r := "\n    " ++ p0.1 ++ " = load atomic i64, i64* %ptr monotonic, align 1 ; Decrement\n    "
      ++ p1.1 ++ " = getelementptr [" ++ toString mem_size ++ " x i8], [" ++ toString mem_size
      ++ " x i8]* @mem, i64 0, i64 " ++ p0.1 ++ "\n    "
      ++ p2.1 ++ " = load atomic volatile i8, i8* " ++ p1.1 ++ " monotonic, align 1\n    "
      ++ p3.1 ++ " = sub i8 " ++ p2.1 ++ ", " ++ toString v
      ++ "\n    store atomic volatile i8 " ++ p3.1 ++ ", i8* " ++ p1.1 ++ " monotonic, align 1"
    gen_ir_nodes mem_size (ir ++ r) p3.2 rest
  | ir, st, Node.output _ :: rest =>
    let p0 := st.ident
    let p1 := p0.2.ident
    let r := "\n    " ++ p0.1 ++ " = load atomic i64, i64* %ptr monotonic, align 1 ; Output\n    "
      ++ p1.1 ++ " = getelementptr [" ++ toString mem_size ++ " x i8], [" ++ toString mem_size
      ++ " x i8]* @mem, i64 0, i64 " ++ p0.1 ++ "\n    "
      ++ "call i64 asm sideeffect \"syscall\", \"=r,\x7brax\x7d,\x7brdi\x7d,\x7brsi\x7d,\x7brdx\x7d\"(i64 1, i64 1, i8* "
      ++ p1.1 ++ ", i64 1)"
    gen_ir_nodes mem_size (ir ++ r) p1.2 rest
  | ir, st, Node.input _ :: rest =>
    let p0 := st.ident
    let p1 := p0.2.ident
    let r := "\n    " ++ p0.1 ++ " = load atomic i64, i64* %ptr monotonic, align 1 ; Input\n    "
      ++ p1.1 ++ " = getelementptr [" ++ toString mem_size ++ " x i8], [" ++ toString mem_size
      ++ " x i8]* @mem, i64 0, i64 " ++ p0.1 ++ "\n    "
      ++ "call i64 asm sideeffect \"syscall\", \"=r,\x7brax\x7d,\x7brdi\x7d,\x7brsi\x7d,\x7brdx\x7d\"(i64 0, i64 0, i8* "
      ++ p1.1 ++ ", i64 1)"
    gen_ir_nodes mem_size (ir ++ r) p1.2 rest
  | ir, st, Node.loop body _ :: rest =>
    let p0 := st.ident
    let p1 := p0.2.ident
    let p2 := p1.2.ident
    let p3 := p2.2.ident
    let ph := p3.2.label
    let pb := ph.2.label
    let pe := pb.2.label
    let r := "\n    br label %" ++ ph.1 ++ " ; Loop\n" ++ ph.1 ++ ":\n    "
      ++ p0.1 ++ " = load atomic i64, i64* %ptr monotonic, align 1\n    "
      ++ p1.1 ++ " = getelementptr [" ++ toString mem_size ++ " x i8], [" ++ toString mem_size
      ++ " x i8]* @mem, i64 0, i64 " ++ p0.1 ++ "\n    "
      ++ p2.1 ++ " = load atomic volatile i8, i8* " ++ p1.1 ++ " monotonic, align 1\n    "
      ++ p3.1 ++ " = icmp eq i8 0, " ++ p2.1 ++ "\n    br i1 " ++ p3.1 ++ ", label %"
      ++ pe.1 ++ ", label %" ++ pb.1 ++ "\n" ++ pb.1 ++ ":"
    let inner := gen_ir_nodes mem_size (ir ++ r) pe.2 body
    let r2 := "\n    br label %" ++ ph.1 ++ "\n" ++ pe.1 ++ ":"
    gen_ir_nodes mem_size (inner.1 ++ r2) inner.2 rest
termination_by ir st ns => sizeOf ns
decreasing_by
  all_goals simp only [List.cons.sizeOf_spec, Node.loop.sizeOf_spec]
  all_goals omega

/-- `Program::gen_ir` (brainfuck.rs lines 371–393): fixed prelude, the
body via `gen_ir_nodes` from a fresh counter, fixed epilogue. -/
def Program.gen_ir (mem_size : Nat) (ns : List Node) : String :=
  let prelude := "\n@mem = private global [" ++ toString mem_size
    ++ " x i8] zeroinitializer\ndefine void @_start() \x7b\n    %ptr = alloca i64\n    store atomic volatile i64 "
    ++ toString (mem_size / 2) ++ ", i64* %ptr monotonic, align 1"
  let p := gen_ir_nodes mem_size prelude IrState.new ns
  let epilogue := "\n    call i64 asm sideeffect \"syscall\", \"=r,\x7brax\x7d,\x7brdi\x7d\"(i64 60, i64 0)\n    ret void\n\x7d"
  p.1 ++ epilogue

/-- Number of identifier/label names `gen_ir_nodes` mints for a node
sequence (2 per pointer/stream node, 4 per cell-delta node, 4 idents +
3 labels per loop plus its body's mints). -/
def mintWeight : List Node → Nat
  | [] => 0
  | Node.loop body _ :: rest => 7 + mintWeight body + mintWeight rest
  | Node.incPtr _ _ :: rest => 2 + mintWeight rest
  | Node.decPtr _ _ :: rest => 2 + mintWeight rest
  | Node.increment _ _ :: rest => 4 + mintWeight rest
  | Node.decrement _ _ :: rest => 4 + mintWeight rest
  | Node.output _ :: rest => 2 + mintWeight rest
  | Node.input _ :: rest => 2 + mintWeight rest
termination_by ns => sizeOf ns
decreasing_by
  all_goals simp only [List.cons.sizeOf_spec, Node.loop.sizeOf_spec]
  all_goals omega

/-- The sequence of names `gen_ir_nodes` mints starting at counter `c`,
in minting order — instrumentation mirroring the `state.ident()` /
`state.label()` calls of each arm of `gen_ir_nodes`. -/
def mintedNames (c : Int) : List Node → List String
  | [] => []
  | Node.loop body _ :: rest =>
    mkIdent (c + 1) :: mkIdent (c + 2) :: mkIdent (c + 3) :: mkIdent (c + 4) ::
    mkLabel (c + 5) :: mkLabel (c + 6) :: mkLabel (c + 7) ::
    (mintedNames (c + 7) body ++ mintedNames (c + 7 + mintWeight body) rest)
  | Node.incPtr _ _ :: rest => mkIdent (c + 1) :: mkIdent (c + 2) :: mintedNames (c + 2) rest
  | Node.decPtr _ _ :: rest => mkIdent (c + 1) :: mkIdent (c + 2) :: mintedNames (c + 2) rest
  | Node.increment _ _ :: rest =>
    mkIdent (c + 1) :: mkIdent (c + 2) :: mkIdent (c + 3) :: mkIdent (c + 4) ::
    mintedNames (c + 4) rest
  | Node.decrement _ _ :: rest =>
    mkIdent (c + 1) :: mkIdent (c + 2) :: mkIdent (c + 3) :: mkIdent (c + 4) ::
    mintedNames (c + 4) rest
  | Node.output _ :: rest => mkIdent (c + 1) :: mkIdent (c + 2) :: mintedNames (c + 2) rest
  | Node.input _ :: rest => mkIdent (c + 1) :: mkIdent (c + 2) :: mintedNames (c + 2) rest
termination_by ns => sizeOf ns
decreasing_by
  all_goals simp only [List.cons.sizeOf_spec, Node.loop.sizeOf_spec]
  all_goals omega

/-- Is this node one whose interpreter arm performs the `cursor ≥ size`
bounds check (everything except bare pointer motion)? -/
def memTouching : Node → Bool
  | .incPtr _ _ => false
  | .decPtr _ _ => false
  | _ => true

/-- The `DebugInfo` attached to a node. -/
def debugOf : Node → DebugInfo
  | .loop _ d => d
  | .incPtr _ d => d
  | .decPtr _ d => d
  | .increment _ d => d
  | .decrement _ d => d
  | .output d => d
  | .input d => d

/-- A concrete source position used by witnesses and counterexamples. -/
def dEx : DebugInfo := { directory := "dir", file := "ex.b", line := 3, column := 7 }

/-- A concrete interpreter state whose cursor is at the size boundary
(`mem_size = 0`, `ptr = 0`, so `ptr ≥ mem_size`). -/
def sEx : InterpState :=
  { ptr := 0, mem := [], mem_size := 0, input := [7, 8], output := [] }

theorem parseBody_nil : parseBody [] = .eof [] := by
  simp [parseBody, parseBodyA]

theorem parseBody_closeBlock (d : DebugInfo) (rest : List Symbol) :
    parseBody (Symbol.closeBlock d :: rest) = .close [] d rest := by
  simp [parseBody, parseBodyA]

theorem parseBody_incPtr (d : DebugInfo) (rest : List Symbol) :
    parseBody (Symbol.incPtr d :: rest) = consNode (Node.incPtr 1 d) (parseBody rest) := by
  simp [parseBody, parseBodyA]

theorem parseBody_decPtr (d : DebugInfo) (rest : List Symbol) :
    parseBody (Symbol.decPtr d :: rest) = consNode (Node.decPtr 1 d) (parseBody rest) := by
  simp [parseBody, parseBodyA]

theorem parseBody_increment (d : DebugInfo) (rest : List Symbol) :
    parseBody (Symbol.increment d :: rest) = consNode (Node.increment 1 d) (parseBody rest) := by
  simp [parseBody, parseBodyA]

theorem parseBody_decrement (d : DebugInfo) (rest : List Symbol) :
    parseBody (Symbol.decrement d :: rest) = consNode (Node.decrement 1 d) (parseBody rest) := by
  simp [parseBody, parseBodyA]

theorem parseBody_output (d : DebugInfo) (rest : List Symbol) :
    parseBody (Symbol.output d :: rest) = consNode (Node.output d) (parseBody rest) := by
  simp [parseBody, parseBodyA]

theorem parseBody_input (d : DebugInfo) (rest : List Symbol) :
    parseBody (Symbol.input d :: rest) = consNode (Node.input d) (parseBody rest) := by
  simp [parseBody, parseBodyA]

theorem parseBody_openBlock (d : DebugInfo) (rest : List Symbol) :
    parseBody (Symbol.openBlock d :: rest) =
      match parseBody rest with
      | .eof _ => .err d
      | .err d' => .err d'
      | .close body _ rest' =>
        match parseBody rest' with
        | .eof ns => .eof (Node.loop body d :: ns)
        | .err d' => .err d'
        | .close ns d₂ r₂ => .close (Node.loop body d :: ns) d₂ r₂ := by
  rw [show parseBody (Symbol.openBlock d :: rest) = (parseBodyA (Symbol.openBlock d :: rest)).1 from rfl]
  rw [parseBodyA]
  rcases h1 : parseBodyA rest with ⟨r1, p1⟩
  rw [show parseBody rest = r1 by rw [parseBody, h1]]
  cases r1 with
  | eof ns => rfl
  | err d' => rfl
  | close body dd rest' =>
    dsimp only
    rcases h2 : parseBodyA rest' with ⟨r2, p2⟩
    rw [show parseBody rest' = r2 by rw [parseBody, h2]]
    cases r2 <;> rfl

theorem parseBody_close_length {syms : List Symbol} {ns : List Node} {d : DebugInfo}
    {rest : List Symbol} (h : parseBody syms = .close ns d rest) :
    rest.length < syms.length :=
  (parseBodyA syms).2 ns d rest h

theorem scanBrackets_eq_parseBody :
    ∀ (k : Nat) (syms : List Symbol), syms.length ≤ k → ∀ (stk : List DebugInfo),
    scanBrackets syms stk =
      match parseBody syms with
      | .eof _ => stk.head?
      | .close _ d rest =>
        match stk with
        | [] => some d
        | _ :: stk' => scanBrackets rest stk'
      | .err d => some d := by
  intro k
  induction k with
  | zero =>
    intro syms hlen stk
    have : syms = [] := List.length_eq_zero.1 (Nat.le_zero.1 hlen)
    subst this
    cases stk <;> simp [scanBrackets, parseBody_nil]
  | succ k ih =>
    intro syms hlen stk
    match syms with
    | [] => cases stk <;> simp [scanBrackets, parseBody_nil]
    | Symbol.openBlock d :: rest =>
      have hr : rest.length ≤ k := by simp at hlen; omega
      rw [scanBrackets, ih rest hr (d :: stk), parseBody_openBlock]
      cases hpb : parseBody rest with
      | eof ns => simp
      | err d' => simp
      | close body dd rest' =>
        have hr' : rest'.length ≤ k :=
          Nat.le_of_lt (Nat.lt_of_lt_of_le (parseBody_close_length hpb) hr)
        simp only [List.head?]
        rw [ih rest' hr' stk]
        cases hpb' : parseBody rest' with
        | eof ns => rfl
        | err d' => rfl
        | close ns d₂ r₂ => cases stk <;> rfl
    | Symbol.closeBlock d :: rest =>
      rw [parseBody_closeBlock]
      cases stk with
      | nil => rfl
      | cons s stk' => rfl
    | Symbol.incPtr d :: rest =>
      have hr : rest.length ≤ k := by simp at hlen; omega
      rw [scanBrackets, ih rest hr stk, parseBody_incPtr]
      cases parseBody rest <;> rfl
    | Symbol.decPtr d :: rest =>
      have hr : rest.length ≤ k := by simp at hlen; omega
      rw [scanBrackets, ih rest hr stk, parseBody_decPtr]
      cases parseBody rest <;> rfl
    | Symbol.increment d :: rest =>
      have hr : rest.length ≤ k := by simp at hlen; omega
      rw [scanBrackets, ih rest hr stk, parseBody_increment]
      cases parseBody rest <;> rfl
    | Symbol.decrement d :: rest =>
      have hr : rest.length ≤ k := by simp at hlen; omega
      rw [scanBrackets, ih rest hr stk, parseBody_decrement]
      cases parseBody rest <;> rfl
    | Symbol.output d :: rest =>
      have hr : rest.length ≤ k := by simp at hlen; omega
      rw [scanBrackets, ih rest hr stk, parseBody_output]
      cases parseBody rest <;> rfl
    | Symbol.input d :: rest =>
      have hr : rest.length ≤ k := by simp at hlen; omega
      rw [scanBrackets, ih rest hr stk, parseBody_input]
      cases parseBody rest <;> rfl

theorem optimize_nodes_nil : optimize_nodes [] = [] := by
  simp [optimize_nodes]

theorem optimize_nodes_loop (body : List Node) (d : DebugInfo) (rest : List Node) :
    optimize_nodes (Node.loop body d :: rest) =
      Node.loop (optimize_nodes body) d :: optimize_nodes rest := by
  simp [optimize_nodes]

theorem optimize_nodes_incPtr (v : Nat) (d : DebugInfo) (rest : List Node) :
    optimize_nodes (Node.incPtr v d :: rest) =
      Node.incPtr (collectIncPtr v rest).1 d :: optimize_nodes (collectIncPtr v rest).2 := by
  simp [optimize_nodes]

theorem optimize_nodes_decPtr (v : Nat) (d : DebugInfo) (rest : List Node) :
    optimize_nodes (Node.decPtr v d :: rest) =
      Node.decPtr (collectDecPtr v rest).1 d :: optimize_nodes (collectDecPtr v rest).2 := by
  simp [optimize_nodes]

theorem optimize_nodes_increment (v : Nat) (d : DebugInfo) (rest : List Node) :
    optimize_nodes (Node.increment v d :: rest) =
      Node.increment (collectIncrement v rest).1 d :: optimize_nodes (collectIncrement v rest).2 := by
  simp [optimize_nodes]

theorem optimize_nodes_decrement (v : Nat) (d : DebugInfo) (rest : List Node) :
    optimize_nodes (Node.decrement v d :: rest) =
      Node.decrement (collectDecrement v rest).1 d :: optimize_nodes (collectDecrement v rest).2 := by
  simp [optimize_nodes]

theorem optimize_nodes_output (d : DebugInfo) (rest : List Node) :
    optimize_nodes (Node.output d :: rest) = Node.output d :: optimize_nodes rest := by
  simp [optimize_nodes]

theorem optimize_nodes_input (d : DebugInfo) (rest : List Node) :
    optimize_nodes (Node.input d :: rest) = Node.input d :: optimize_nodes rest := by
  simp [optimize_nodes]

theorem collectIncPtr_stop (value : Nat) (l : List Node) :
    headKind (collectIncPtr value l).2 ≠ some NK.incPtr := by
  induction l generalizing value with
  | nil => simp [collectIncPtr, headKind]
  | cons n rest ih =>
    cases n with
    | incPtr v d => rw [collectIncPtr]; exact ih _
    | loop b d => simp [collectIncPtr, headKind, kindOf]
    | decPtr v d => simp [collectIncPtr, headKind, kindOf]
    | increment v d => simp [collectIncPtr, headKind, kindOf]
    | decrement v d => simp [collectIncPtr, headKind, kindOf]
    | output d => simp [collectIncPtr, headKind, kindOf]
    | input d => simp [collectIncPtr, headKind, kindOf]

theorem collectDecPtr_stop (value : Nat) (l : List Node) :
    headKind (collectDecPtr value l).2 ≠ some NK.decPtr := by
  induction l generalizing value with
  | nil => simp [collectDecPtr, headKind]
  | cons n rest ih =>
    cases n with
    | decPtr v d => rw [collectDecPtr]; exact ih _
    | loop b d => simp [collectDecPtr, headKind, kindOf]
    | incPtr v d => simp [collectDecPtr, headKind, kindOf]
    | increment v d => simp [collectDecPtr, headKind, kindOf]
    | decrement v d => simp [collectDecPtr, headKind, kindOf]
    | output d => simp [collectDecPtr, headKind, kindOf]
    | input d => simp [collectDecPtr, headKind, kindOf]

theorem collectIncrement_stop (value : Nat) (l : List Node) :
    headKind (collectIncrement value l).2 ≠ some NK.increment := by
  induction l generalizing value with
  | nil => simp [collectIncrement, headKind]
  | cons n rest ih =>
    cases n with
    | increment v d => rw [collectIncrement]; exact ih _
    | loop b d => simp [collectIncrement, headKind, kindOf]
    | incPtr v d => simp [collectIncrement, headKind, kindOf]
    | decPtr v d => simp [collectIncrement, headKind, kindOf]
    | decrement v d => simp [collectIncrement, headKind, kindOf]
    | output d => simp [collectIncrement, headKind, kindOf]
    | input d => simp [collectIncrement, headKind, kindOf]

theorem collectDecrement_stop (value : Nat) (l : List Node) :
    headKind (collectDecrement value l).2 ≠ some NK.decrement := by
  induction l generalizing value with
  | nil => simp [collectDecrement, headKind]
  | cons n rest ih =>
    cases n with
    | decrement v d => rw [collectDecrement]; exact ih _
    | loop b d => simp [collectDecrement, headKind, kindOf]
    | incPtr v d => simp [collectDecrement, headKind, kindOf]
    | decPtr v d => simp [collectDecrement, headKind, kindOf]
    | increment v d => simp [collectDecrement, headKind, kindOf]
    | output d => simp [collectDecrement, headKind, kindOf]
    | input d => simp [collectDecrement, headKind, kindOf]

theorem collectIncPtr_id {l : List Node} (value : Nat)
    (h : headKind l ≠ some NK.incPtr) : collectIncPtr value l = (value, l) := by
  match l with
  | [] => simp [collectIncPtr]
  | Node.loop b d :: rest => simp [collectIncPtr]
  | Node.incPtr v d :: rest => exact absurd (by simp [headKind, kindOf]) h
  | Node.decPtr v d :: rest => simp [collectIncPtr]
  | Node.increment v d :: rest => simp [collectIncPtr]
  | Node.decrement v d :: rest => simp [collectIncPtr]
  | Node.output d :: rest => simp [collectIncPtr]
  | Node.input d :: rest => simp [collectIncPtr]

theorem collectDecPtr_id {l : List Node} (value : Nat)
    (h : headKind l ≠ some NK.decPtr) : collectDecPtr value l = (value, l) := by
  match l with
  | [] => simp [collectDecPtr]
  | Node.loop b d :: rest => simp [collectDecPtr]
  | Node.incPtr v d :: rest => simp [collectDecPtr]
  | Node.decPtr v d :: rest => exact absurd (by simp [headKind, kindOf]) h
  | Node.increment v d :: rest => simp [collectDecPtr]
  | Node.decrement v d :: rest => simp [collectDecPtr]
  | Node.output d :: rest => simp [collectDecPtr]
  | Node.input d :: rest => simp [collectDecPtr]

theorem collectIncrement_id {l : List Node} (value : Nat)
    (h : headKind l ≠ some NK.increment) : collectIncrement value l = (value, l) := by
  match l with
  | [] => simp [collectIncrement]
  | Node.loop b d :: rest => simp [collectIncrement]
  | Node.incPtr v d :: rest => simp [collectIncrement]
  | Node.decPtr v d :: rest => simp [collectIncrement]
  | Node.increment v d :: rest => exact absurd (by simp [headKind, kindOf]) h
  | Node.decrement v d :: rest => simp [collectIncrement]
  | Node.output d :: rest => simp [collectIncrement]
  | Node.input d :: rest => simp [collectIncrement]

theorem collectDecrement_id {l : List Node} (value : Nat)
    (h : headKind l ≠ some NK.decrement) : collectDecrement value l = (value, l) := by
  match l with
  | [] => simp [collectDecrement]
  | Node.loop b d :: rest => simp [collectDecrement]
  | Node.incPtr v d :: rest => simp [collectDecrement]
  | Node.decPtr v d :: rest => simp [collectDecrement]
  | Node.increment v d :: rest => simp [collectDecrement]
  | Node.decrement v d :: rest => exact absurd (by simp [headKind, kindOf]) h
  | Node.output d :: rest => simp [collectDecrement]
  | Node.input d :: rest => simp [collectDecrement]

theorem optimize_nodes_headKind (l : List Node) :
    headKind (optimize_nodes l) = headKind l := by
  match l with
  | [] => simp [optimize_nodes_nil]
  | Node.loop b d :: rest => simp [optimize_nodes_loop, headKind, kindOf]
  | Node.incPtr v d :: rest => simp [optimize_nodes_incPtr, headKind, kindOf]
  | Node.decPtr v d :: rest => simp [optimize_nodes_decPtr, headKind, kindOf]
  | Node.increment v d :: rest => simp [optimize_nodes_increment, headKind, kindOf]
  | Node.decrement v d :: rest => simp [optimize_nodes_decrement, headKind, kindOf]
  | Node.output d :: rest => simp [optimize_nodes_output, headKind, kindOf]
  | Node.input d :: rest => simp [optimize_nodes_input, headKind, kindOf]

theorem optimize_nodes_idem_aux :
    ∀ (k : Nat) (ns : List Node), sizeOf ns ≤ k →
    optimize_nodes (optimize_nodes ns) = optimize_nodes ns := by
  intro k
  induction k with
  | zero =>
    intro ns h
    match ns with
    | [] => simp [optimize_nodes_nil]
    | n :: rest => simp only [List.cons.sizeOf_spec] at h; omega
  | succ k ih =>
    intro ns hsz
    match ns with
    | [] => simp [optimize_nodes_nil]
    | Node.loop b d :: rest =>
      have h1 : sizeOf b ≤ k := by
        simp only [List.cons.sizeOf_spec, Node.loop.sizeOf_spec] at hsz; omega
      have h2 : sizeOf rest ≤ k := by
        simp only [List.cons.sizeOf_spec, Node.loop.sizeOf_spec] at hsz; omega
      rw [optimize_nodes_loop, optimize_nodes_loop, ih b h1, ih rest h2]
    | Node.incPtr v d :: rest =>
      have hc := collectIncPtr_sizeOf v rest
      have h2 : sizeOf (collectIncPtr v rest).2 ≤ k := by
        simp only [List.cons.sizeOf_spec] at hsz; omega
      rw [optimize_nodes_incPtr, optimize_nodes_incPtr,
        collectIncPtr_id _ (by rw [optimize_nodes_headKind]; exact collectIncPtr_stop v rest),
        ih _ h2]
    | Node.decPtr v d :: rest =>
      have hc := collectDecPtr_sizeOf v rest
      have h2 : sizeOf (collectDecPtr v rest).2 ≤ k := by
        simp only [List.cons.sizeOf_spec] at hsz; omega
      rw [optimize_nodes_decPtr, optimize_nodes_decPtr,
        collectDecPtr_id _ (by rw [optimize_nodes_headKind]; exact collectDecPtr_stop v rest),
        ih _ h2]
    | Node.increment v d :: rest =>
      have hc := collectIncrement_sizeOf v rest
      have h2 : sizeOf (collectIncrement v rest).2 ≤ k := by
        simp only [List.cons.sizeOf_spec] at hsz; omega
      rw [optimize_nodes_increment, optimize_nodes_increment,
        collectIncrement_id _ (by rw [optimize_nodes_headKind]; exact collectIncrement_stop v rest),
        ih _ h2]
    | Node.decrement v d :: rest =>
      have hc := collectDecrement_sizeOf v rest
      have h2 : sizeOf (collectDecrement v rest).2 ≤ k := by
        simp only [List.cons.sizeOf_spec] at hsz; omega
      rw [optimize_nodes_decrement, optimize_nodes_decrement,
        collectDecrement_id _ (by rw [optimize_nodes_headKind]; exact collectDecrement_stop v rest),
        ih _ h2]
    | Node.output d :: rest =>
      have h2 : sizeOf rest ≤ k := by simp only [List.cons.sizeOf_spec] at hsz; omega
      rw [optimize_nodes_output, optimize_nodes_output, ih rest h2]
    | Node.input d :: rest =>
      have h2 : sizeOf rest ≤ k := by simp only [List.cons.sizeOf_spec] at hsz; omega
      rw [optimize_nodes_input, optimize_nodes_input, ih rest h2]

theorem execNode_incPtr (fuel : Nat) (v : Nat) (d : DebugInfo) (s : InterpState) :
    execNode fuel (Node.incPtr v d) s = .ok { s with ptr := (s.ptr + v) % USIZE } := by
  simp [execNode]

theorem execNode_decPtr (fuel : Nat) (v : Nat) (d : DebugInfo) (s : InterpState) :
    execNode fuel (Node.decPtr v d) s =
      .ok { s with ptr := (s.ptr + (USIZE - v % USIZE)) % USIZE } := by
  simp [execNode]

theorem execNode_increment (fuel : Nat) (v : Nat) (d : DebugInfo) (s : InterpState) :
    execNode fuel (Node.increment v d) s =
      if s.is_oob then .oob d s
      else .ok { s with mem := s.mem.set s.ptr ((s.mem.getD s.ptr 0 + v) % U8) } := by
  simp [execNode]

theorem execNode_decrement (fuel : Nat) (v : Nat) (d : DebugInfo) (s : InterpState) :
    execNode fuel (Node.decrement v d) s =
      if s.is_oob then .oob d s
      else .ok { s with mem := s.mem.set s.ptr ((s.mem.getD s.ptr 0 + (U8 - v % U8)) % U8) } := by
  simp [execNode]

theorem execNode_output (fuel : Nat) (d : DebugInfo) (s : InterpState) :
    execNode fuel (Node.output d) s =
      if s.is_oob then .oob d s
      else .ok { s with output := s.output ++ [s.mem.getD s.ptr 0] } := by
  simp [execNode]

theorem execNode_input (fuel : Nat) (d : DebugInfo) (s : InterpState) :
    execNode fuel (Node.input d) s =
      if s.is_oob then .oob d { s with input := (getchar s.input).2 }
      else .ok { s with input := (getchar s.input).2,
                        mem := s.mem.set s.ptr (asU8 (getchar s.input).1) } := by
  simp [execNode]

theorem execNode_loop (fuel : Nat) (body : List Node) (d : DebugInfo) (s : InterpState) :
    execNode fuel (Node.loop body d) s =
      if s.is_oob then .oob d s else execLoop fuel body d s := by
  simp [execNode]

theorem execLoop_zero (body : List Node) (d : DebugInfo) (s : InterpState) :
    execLoop 0 body d s = .timeout := by
  simp [execLoop]

theorem execLoop_succ (fuel : Nat) (body : List Node) (d : DebugInfo) (s : InterpState) :
    execLoop (fuel + 1) body d s =
      if s.mem.getD s.ptr 0 ≠ 0 then
        match execNodes fuel body s with
        | .ok s' => if s'.is_oob then .oob d s' else execLoop fuel body d s'
        | r => r
      else .ok s := by
  rw [execLoop]

theorem execNodes_nil (fuel : Nat) (s : InterpState) :
    execNodes fuel [] s = .ok s := by
  simp [execNodes]

theorem execNodes_cons (fuel : Nat) (n : Node) (rest : List Node) (s : InterpState) :
    execNodes fuel (n :: rest) s =
      match execNode fuel n s with
      | .ok s' => execNodes fuel rest s'
      | r => r := by
  rw [execNodes]

theorem getD_set_self (l : List Nat) (n : Nat) (a : Nat) :
    (l.set n a).getD n 0 = if n < l.length then a else l.getD n 0 := by
  by_cases h : n < l.length
  · simp [h, List.getD_eq_getElem?_getD, List.getElem?_set_self', List.getElem?_eq_getElem h]
  · rw [List.set_eq_of_length_le (Nat.le_of_not_lt h)]
    simp [h]

theorem exec_collectIncPtr (rest : List Node) :
    ∀ (v fuel : Nat) (d : DebugInfo) (s : InterpState),
    execNodes fuel (Node.incPtr (collectIncPtr v rest).1 d :: (collectIncPtr v rest).2) s =
      execNodes fuel (Node.incPtr v d :: rest) s := by
  induction rest with
  | nil => intro v fuel d s; rw [collectIncPtr] <;> simp
  | cons n rest2 ih =>
    intro v fuel d s
    cases n with
    | incPtr v2 d2 =>
      rw [collectIncPtr, ih ((v + v2) % USIZE) fuel d s]
      rw [execNodes_cons, execNodes_cons, execNode_incPtr, execNode_incPtr]
      dsimp only
      rw [execNodes_cons, execNode_incPtr]
      dsimp only
      have harith : (s.ptr + (v + v2) % USIZE) % USIZE = ((s.ptr + v) % USIZE + v2) % USIZE := by
        simp only [USIZE]; omega
      rw [harith]
    | loop b d2 => rw [collectIncPtr] <;> simp
    | decPtr v2 d2 => rw [collectIncPtr] <;> simp
    | increment v2 d2 => rw [collectIncPtr] <;> simp
    | decrement v2 d2 => rw [collectIncPtr] <;> simp
    | output d2 => rw [collectIncPtr] <;> simp
    | input d2 => rw [collectIncPtr] <;> simp

theorem exec_collectDecPtr (rest : List Node) :
    ∀ (v fuel : Nat) (d : DebugInfo) (s : InterpState),
    execNodes fuel (Node.decPtr (collectDecPtr v rest).1 d :: (collectDecPtr v rest).2) s =
      execNodes fuel (Node.decPtr v d :: rest) s := by
  induction rest with
  | nil => intro v fuel d s; rw [collectDecPtr] <;> simp
  | cons n rest2 ih =>
    intro v fuel d s
    cases n with
    | decPtr v2 d2 =>
      rw [collectDecPtr, ih ((v + v2) % USIZE) fuel d s]
      rw [execNodes_cons, execNodes_cons, execNode_decPtr, execNode_decPtr]
      dsimp only
      rw [execNodes_cons, execNode_decPtr]
      dsimp only
      have harith : (s.ptr + (USIZE - (v + v2) % USIZE % USIZE)) % USIZE =
          ((s.ptr + (USIZE - v % USIZE)) % USIZE + (USIZE - v2 % USIZE)) % USIZE := by
        simp only [USIZE]; omega
      rw [harith]
    | loop b d2 => rw [collectDecPtr] <;> simp
    | incPtr v2 d2 => rw [collectDecPtr] <;> simp
    | increment v2 d2 => rw [collectDecPtr] <;> simp
    | decrement v2 d2 => rw [collectDecPtr] <;> simp
    | output d2 => rw [collectDecPtr] <;> simp
    | input d2 => rw [collectDecPtr] <;> simp

theorem exec_collectIncrement (rest : List Node) :
    ∀ (v fuel : Nat) (d : DebugInfo) (s : InterpState),
    execNodes fuel (Node.increment (collectIncrement v rest).1 d :: (collectIncrement v rest).2) s =
      execNodes fuel (Node.increment v d :: rest) s := by
  induction rest with
  | nil => intro v fuel d s; rw [collectIncrement] <;> simp
  | cons n rest2 ih =>
    intro v fuel d s
    cases n with
    | increment v2 d2 =>
      rw [collectIncrement, ih ((v + v2) % U8) fuel d s]
      rw [execNodes_cons, execNodes_cons, execNode_increment, execNode_increment]
      by_cases ho : s.is_oob
      · simp [ho]
      · simp only [ho, if_false, Bool.false_eq_true]
        rw [execNodes_cons, execNode_increment]
        have ho2 : ({ s with mem := s.mem.set s.ptr ((s.mem.getD s.ptr 0 + v) % U8) }
            : InterpState).is_oob = false := by
          simp only [InterpState.is_oob] at ho ⊢
          simpa using ho
        simp only [ho2, if_false, Bool.false_eq_true]
        try dsimp only
        congr 1
        rw [List.set_set, getD_set_self]
        by_cases hl : s.ptr < s.mem.length
        · rw [if_pos hl]
          have hval : (s.mem.getD s.ptr 0 + (v + v2) % U8) % U8
              = ((s.mem.getD s.ptr 0 + v) % U8 + v2) % U8 := by
            simp only [U8]; omega
          rw [hval]
        · rw [if_neg hl]
          rw [List.set_eq_of_length_le (Nat.le_of_not_lt hl),
            List.set_eq_of_length_le (Nat.le_of_not_lt hl)]
    | loop b d2 => rw [collectIncrement] <;> simp
    | incPtr v2 d2 => rw [collectIncrement] <;> simp
    | decPtr v2 d2 => rw [collectIncrement] <;> simp
    | decrement v2 d2 => rw [collectIncrement] <;> simp
    | output d2 => rw [collectIncrement] <;> simp
    | input d2 => rw [collectIncrement] <;> simp

theorem exec_collectDecrement (rest : List Node) :
    ∀ (v fuel : Nat) (d : DebugInfo) (s : InterpState),
    execNodes fuel (Node.decrement (collectDecrement v rest).1 d :: (collectDecrement v rest).2) s =
      execNodes fuel (Node.decrement v d :: rest) s := by
  induction rest with
  | nil => intro v fuel d s; rw [collectDecrement] <;> simp
  | cons n rest2 ih =>
    intro v fuel d s
    cases n with
    | decrement v2 d2 =>
      rw [collectDecrement, ih ((v + v2) % U8) fuel d s]
      rw [execNodes_cons, execNodes_cons, execNode_decrement, execNode_decrement]
      by_cases ho : s.is_oob
      · simp [ho]
      · simp only [ho, if_false, Bool.false_eq_true]
        rw [execNodes_cons, execNode_decrement]
        have ho2 : ({ s with mem := s.mem.set s.ptr ((s.mem.getD s.ptr 0 + (U8 - v % U8)) % U8) }
            : InterpState).is_oob = false := by
          simp only [InterpState.is_oob] at ho ⊢
          simpa using ho
        simp only [ho2, if_false, Bool.false_eq_true]
        try dsimp only
        congr 1
        rw [List.set_set, getD_set_self]
        by_cases hl : s.ptr < s.mem.length
        · rw [if_pos hl]
          have hval : (s.mem.getD s.ptr 0 + (U8 - (v + v2) % U8 % U8)) % U8
              = ((s.mem.getD s.ptr 0 + (U8 - v % U8)) % U8 + (U8 - v2 % U8)) % U8 := by
            simp only [U8]; omega
          rw [hval]
        · rw [if_neg hl]
          rw [List.set_eq_of_length_le (Nat.le_of_not_lt hl),
            List.set_eq_of_length_le (Nat.le_of_not_lt hl)]
    | loop b d2 => rw [collectDecrement] <;> simp
    | incPtr v2 d2 => rw [collectDecrement] <;> simp
    | decPtr v2 d2 => rw [collectDecrement] <;> simp
    | increment v2 d2 => rw [collectDecrement] <;> simp
    | output d2 => rw [collectDecrement] <;> simp
    | input d2 => rw [collectDecrement] <;> simp

theorem execLoop_congr : ∀ (fuel : Nat) (b1 b2 : List Node) (d : DebugInfo),
    (∀ f' s', f' < fuel → execNodes f' b1 s' = execNodes f' b2 s') →
    ∀ s, execLoop fuel b1 d s = execLoop fuel b2 d s := by
  intro fuel
  induction fuel with
  | zero => intro b1 b2 d h s; rw [execLoop_zero, execLoop_zero]
  | succ f ih =>
    intro b1 b2 d h s
    rw [execLoop_succ, execLoop_succ]
    by_cases hm : s.mem.getD s.ptr 0 = 0
    · simp only [hm]; simp
    · simp only [ne_eq, hm, not_false_eq_true, if_true, if_pos]
      rw [h f s (Nat.lt_succ_self f)]
      cases execNodes f b2 s with
      | ok s' =>
        dsimp only
        by_cases hb : s'.is_oob
        · simp [hb]
        · simp only [hb, Bool.false_eq_true, if_false]
          exact ih b1 b2 d (fun f' s'' hf => h f' s'' (Nat.lt_succ_of_lt hf)) s'
      | oob d' s' => rfl
      | timeout => rfl

theorem execNodes_optimize_aux :
    ∀ (fuel k : Nat) (ns : List Node), sizeOf ns ≤ k → ∀ (s : InterpState),
    execNodes fuel (optimize_nodes ns) s = execNodes fuel ns s := by
  intro fuel
  induction fuel using Nat.strong_induction_on with
  | _ fuel ihf =>
  intro k
  induction k with
  | zero =>
    intro ns hsz s
    match ns with
    | [] => rw [optimize_nodes_nil]
    | n :: rest => simp only [List.cons.sizeOf_spec] at hsz; omega
  | succ k ihk =>
    intro ns hsz s
    match ns with
    | [] => rw [optimize_nodes_nil]
    | Node.loop b d :: rest =>
      have hcong : ∀ s', execLoop fuel (optimize_nodes b) d s' = execLoop fuel b d s' :=
        execLoop_congr fuel _ _ d (fun f' s' hf => ihf f' hf (sizeOf b) b le_rfl s')
      have hrest : sizeOf rest ≤ k := by
        simp only [List.cons.sizeOf_spec, Node.loop.sizeOf_spec] at hsz; omega
      rw [optimize_nodes_loop, execNodes_cons, execNodes_cons]
      have hnode : execNode fuel (Node.loop (optimize_nodes b) d) s
          = execNode fuel (Node.loop b d) s := by
        rw [execNode_loop, execNode_loop, hcong s]
      rw [hnode]
      cases execNode fuel (Node.loop b d) s with
      | ok s' => exact ihk rest hrest s'
      | oob d' s' => rfl
      | timeout => rfl
    | Node.incPtr v d :: rest =>
      have hc := collectIncPtr_sizeOf v rest
      have hrest : sizeOf (collectIncPtr v rest).2 ≤ k := by
        simp only [List.cons.sizeOf_spec] at hsz; omega
      rw [optimize_nodes_incPtr, ← exec_collectIncPtr rest v fuel d s]
      rw [execNodes_cons, execNodes_cons, execNode_incPtr]
      dsimp only
      exact ihk _ hrest _
    | Node.decPtr v d :: rest =>
      have hc := collectDecPtr_sizeOf v rest
      have hrest : sizeOf (collectDecPtr v rest).2 ≤ k := by
        simp only [List.cons.sizeOf_spec] at hsz; omega
      rw [optimize_nodes_decPtr, ← exec_collectDecPtr rest v fuel d s]
      rw [execNodes_cons, execNodes_cons, execNode_decPtr]
      dsimp only
      exact ihk _ hrest _
    | Node.increment v d :: rest =>
      have hc := collectIncrement_sizeOf v rest
      have hrest : sizeOf (collectIncrement v rest).2 ≤ k := by
        simp only [List.cons.sizeOf_spec] at hsz; omega
      rw [optimize_nodes_increment, ← exec_collectIncrement rest v fuel d s]
      rw [execNodes_cons, execNodes_cons]
      cases execNode fuel (Node.increment (collectIncrement v rest).1 d) s with
      | ok s' => exact ihk _ hrest _
      | oob d' s' => rfl
      | timeout => rfl
    | Node.decrement v d :: rest =>
      have hc := collectDecrement_sizeOf v rest
      have hrest : sizeOf (collectDecrement v rest).2 ≤ k := by
        simp only [List.cons.sizeOf_spec] at hsz; omega
      rw [optimize_nodes_decrement, ← exec_collectDecrement rest v fuel d s]
      rw [execNodes_cons, execNodes_cons]
      cases execNode fuel (Node.decrement (collectDecrement v rest).1 d) s with
      | ok s' => exact ihk _ hrest _
      | oob d' s' => rfl
      | timeout => rfl
    | Node.output d :: rest =>
      have hrest : sizeOf rest ≤ k := by
        simp only [List.cons.sizeOf_spec] at hsz; omega
      rw [optimize_nodes_output, execNodes_cons, execNodes_cons]
      cases execNode fuel (Node.output d) s with
      | ok s' => exact ihk rest hrest s'
      | oob d' s' => rfl
      | timeout => rfl
    | Node.input d :: rest =>
      have hrest : sizeOf rest ≤ k := by
        simp only [List.cons.sizeOf_spec] at hsz; omega
      rw [optimize_nodes_input, execNodes_cons, execNodes_cons]
      cases execNode fuel (Node.input d) s with
      | ok s' => exact ihk rest hrest s'
      | oob d' s' => rfl
      | timeout => rfl

theorem parseBody_map_incPtr (ds : List DebugInfo) :
    parseBody (ds.map Symbol.incPtr) = .eof (ds.map fun d => Node.incPtr 1 d) := by
  induction ds with
  | nil => simpa using parseBody_nil
  | cons d ds ih => rw [List.map_cons, parseBody_incPtr, ih]; rfl

theorem parseBody_map_decPtr (ds : List DebugInfo) :
    parseBody (ds.map Symbol.decPtr) = .eof (ds.map fun d => Node.decPtr 1 d) := by
  induction ds with
  | nil => simpa using parseBody_nil
  | cons d ds ih => rw [List.map_cons, parseBody_decPtr, ih]; rfl

theorem parseBody_map_increment (ds : List DebugInfo) :
    parseBody (ds.map Symbol.increment) = .eof (ds.map fun d => Node.increment 1 d) := by
  induction ds with
  | nil => simpa using parseBody_nil
  | cons d ds ih => rw [List.map_cons, parseBody_increment, ih]; rfl

theorem parseBody_map_decrement (ds : List DebugInfo) :
    parseBody (ds.map Symbol.decrement) = .eof (ds.map fun d => Node.decrement 1 d) := by
  induction ds with
  | nil => simpa using parseBody_nil
  | cons d ds ih => rw [List.map_cons, parseBody_decrement, ih]; rfl

theorem collectIncPtr_units {v : Nat} (hv : v < USIZE) (ds : List DebugInfo) :
    collectIncPtr v (ds.map fun d => Node.incPtr 1 d) = ((v + ds.length) % USIZE, []) := by
  induction ds generalizing v with
  | nil => simp [collectIncPtr, Nat.mod_eq_of_lt hv]
  | cons d ds ih =>
    rw [List.map_cons, collectIncPtr, ih (Nat.mod_lt _ (by simp [USIZE]))]
    congr 1
    simp only [List.length_cons, USIZE]
    omega

theorem collectDecPtr_units {v : Nat} (hv : v < USIZE) (ds : List DebugInfo) :
    collectDecPtr v (ds.map fun d => Node.decPtr 1 d) = ((v + ds.length) % USIZE, []) := by
  induction ds generalizing v with
  | nil => simp [collectDecPtr, Nat.mod_eq_of_lt hv]
  | cons d ds ih =>
    rw [List.map_cons, collectDecPtr, ih (Nat.mod_lt _ (by simp [USIZE]))]
    congr 1
    simp only [List.length_cons, USIZE]
    omega

theorem collectIncrement_units {v : Nat} (hv : v < U8) (ds : List DebugInfo) :
    collectIncrement v (ds.map fun d => Node.increment 1 d) = ((v + ds.length) % U8, []) := by
  induction ds generalizing v with
  | nil => simp [collectIncrement, Nat.mod_eq_of_lt hv]
  | cons d ds ih =>
    rw [List.map_cons, collectIncrement, ih (Nat.mod_lt _ (by simp [U8]))]
    congr 1
    simp only [List.length_cons, U8]
    omega

theorem collectDecrement_units {v : Nat} (hv : v < U8) (ds : List DebugInfo) :
    collectDecrement v (ds.map fun d => Node.decrement 1 d) = ((v + ds.length) % U8, []) := by
  induction ds generalizing v with
  | nil => simp [collectDecrement, Nat.mod_eq_of_lt hv]
  | cons d ds ih =>
    rw [List.map_cons, collectDecrement, ih (Nat.mod_lt _ (by simp [U8]))]
    congr 1
    simp only [List.length_cons, U8]
    omega

theorem parseBody_maxDepth :
    ∀ (k : Nat) (syms : List Symbol), syms.length ≤ k →
      (∀ ns, parseBody syms = .eof ns →
        ∀ r : Int, maxDepth r syms = max r (r + astDepth ns)) ∧
      (∀ ns d rest, parseBody syms = .close ns d rest →
        ∀ r : Int, maxDepth r syms = max (max r (r + astDepth ns)) (maxDepth (r - 1) rest)) := by
  intro k
  induction k with
  | zero =>
    intro syms hlen
    have hnil : syms = [] := List.length_eq_zero.1 (Nat.le_zero.1 hlen)
    subst hnil
    constructor
    · intro ns h r
      rw [parseBody_nil] at h
      cases h
      simp [maxDepth, astDepth]
    · intro ns d rest h r
      rw [parseBody_nil] at h
      simp at h
  | succ k ih =>
    intro syms hlen
    match syms with
    | [] =>
      constructor
      · intro ns h r
        rw [parseBody_nil] at h
        cases h
        simp [maxDepth, astDepth]
      · intro ns d rest h r
        rw [parseBody_nil] at h
        simp at h
    | Symbol.closeBlock d0 :: rest0 =>
      constructor
      · intro ns h r
        rw [parseBody_closeBlock] at h
        simp at h
      · intro ns d rest h r
        rw [parseBody_closeBlock] at h
        cases h
        rw [maxDepth, show r + symDelta (Symbol.closeBlock d0) = r - 1 by
          simp [symDelta]; omega]
        simp only [astDepth]
        omega
    | Symbol.openBlock d0 :: rest0 =>
      have hr0 : rest0.length ≤ k := by simp at hlen; omega
      obtain ⟨ih1, ih2⟩ := ih rest0 hr0
      constructor
      · intro ns h r
        rw [parseBody_openBlock] at h
        cases hp : parseBody rest0 with
        | eof ns0 => rw [hp] at h; simp at h
        | err d' => rw [hp] at h; simp at h
        | close body dd rest1 =>
          rw [hp] at h
          dsimp only at h
          have hr1 : rest1.length ≤ k :=
            le_of_lt (Nat.lt_of_lt_of_le (parseBody_close_length hp) hr0)
          obtain ⟨jh1, jh2⟩ := ih rest1 hr1
          cases hp1 : parseBody rest1 with
          | eof ns1 =>
            rw [hp1] at h
            dsimp only at h
            cases h
            rw [maxDepth, show r + symDelta (Symbol.openBlock d0) = r + 1 by simp [symDelta]]
            rw [ih2 body dd rest1 hp (r + 1), show r + 1 - 1 = r by omega, jh1 ns1 hp1 r]
            simp only [astDepth]
            push_cast
            omega
          | err d' => rw [hp1] at h; simp at h
          | close ns1 d₂ r₂ => rw [hp1] at h; simp at h
      · intro ns d rest h r
        rw [parseBody_openBlock] at h
        cases hp : parseBody rest0 with
        | eof ns0 => rw [hp] at h; simp at h
        | err d' => rw [hp] at h; simp at h
        | close body dd rest1 =>
          rw [hp] at h
          dsimp only at h
          have hr1 : rest1.length ≤ k :=
            le_of_lt (Nat.lt_of_lt_of_le (parseBody_close_length hp) hr0)
          obtain ⟨jh1, jh2⟩ := ih rest1 hr1
          cases hp1 : parseBody rest1 with
          | eof ns1 => rw [hp1] at h; simp at h
          | err d' => rw [hp1] at h; simp at h
          | close ns1 d₂ r₂ =>
            rw [hp1] at h
            dsimp only at h
            cases h
            rw [maxDepth, show r + symDelta (Symbol.openBlock d0) = r + 1 by simp [symDelta]]
            rw [ih2 body dd rest1 hp (r + 1), show r + 1 - 1 = r by omega, jh2 ns1 d rest hp1 r]
            simp only [astDepth]
            push_cast
            omega
    | Symbol.incPtr d0 :: rest0 =>
      have hr0 : rest0.length ≤ k := by simp at hlen; omega
      obtain ⟨ih1, ih2⟩ := ih rest0 hr0
      constructor
      · intro ns h r
        rw [parseBody_incPtr] at h
        cases hp : parseBody rest0 with
        | eof ns0 =>
          rw [hp] at h
          simp only [consNode] at h
          cases h
          rw [maxDepth, show r + symDelta (Symbol.incPtr d0) = r by simp [symDelta]]
          rw [ih1 ns0 hp r]
          simp only [astDepth]
          omega
        | err d' => rw [hp] at h; simp [consNode] at h
        | close ns0 dd rr => rw [hp] at h; simp [consNode] at h
      · intro ns d rest h r
        rw [parseBody_incPtr] at h
        cases hp : parseBody rest0 with
        | eof ns0 => rw [hp] at h; simp [consNode] at h
        | err d' => rw [hp] at h; simp [consNode] at h
        | close ns0 dd rr =>
          rw [hp] at h
          simp only [consNode] at h
          cases h
          rw [maxDepth, show r + symDelta (Symbol.incPtr d0) = r by simp [symDelta]]
          rw [ih2 ns0 d rest hp r]
          simp only [astDepth]
          omega
    | Symbol.decPtr d0 :: rest0 =>
      have hr0 : rest0.length ≤ k := by simp at hlen; omega
      obtain ⟨ih1, ih2⟩ := ih rest0 hr0
      constructor
      · intro ns h r
        rw [parseBody_decPtr] at h
        cases hp : parseBody rest0 with
        | eof ns0 =>
          rw [hp] at h
          simp only [consNode] at h
          cases h
          rw [maxDepth, show r + symDelta (Symbol.decPtr d0) = r by simp [symDelta]]
          rw [ih1 ns0 hp r]
          simp only [astDepth]
          omega
        | err d' => rw [hp] at h; simp [consNode] at h
        | close ns0 dd rr => rw [hp] at h; simp [consNode] at h
      · intro ns d rest h r
        rw [parseBody_decPtr] at h
        cases hp : parseBody rest0 with
        | eof ns0 => rw [hp] at h; simp [consNode] at h
        | err d' => rw [hp] at h; simp [consNode] at h
        | close ns0 dd rr =>
          rw [hp] at h
          simp only [consNode] at h
          cases h
          rw [maxDepth, show r + symDelta (Symbol.decPtr d0) = r by simp [symDelta]]
          rw [ih2 ns0 d rest hp r]
          simp only [astDepth]
          omega
    | Symbol.increment d0 :: rest0 =>
      have hr0 : rest0.length ≤ k := by simp at hlen; omega
      obtain ⟨ih1, ih2⟩ := ih rest0 hr0
      constructor
      · intro ns h r
        rw [parseBody_increment] at h
        cases hp : parseBody rest0 with
        | eof ns0 =>
          rw [hp] at h
          simp only [consNode] at h
          cases h
          rw [maxDepth, show r + symDelta (Symbol.increment d0) = r by simp [symDelta]]
          rw [ih1 ns0 hp r]
          simp only [astDepth]
          omega
        | err d' => rw [hp] at h; simp [consNode] at h
        | close ns0 dd rr => rw [hp] at h; simp [consNode] at h
      · intro ns d rest h r
        rw [parseBody_increment] at h
        cases hp : parseBody rest0 with
        | eof ns0 => rw [hp] at h; simp [consNode] at h
        | err d' => rw [hp] at h; simp [consNode] at h
        | close ns0 dd rr =>
          rw [hp] at h
          simp only [consNode] at h
          cases h
          rw [maxDepth, show r + symDelta (Symbol.increment d0) = r by simp [symDelta]]
          rw [ih2 ns0 d rest hp r]
          simp only [astDepth]
          omega
    | Symbol.decrement d0 :: rest0 =>
      have hr0 : rest0.length ≤ k := by simp at hlen; omega
      obtain ⟨ih1, ih2⟩ := ih rest0 hr0
      constructor
      · intro ns h r
        rw [parseBody_decrement] at h
        cases hp : parseBody rest0 with
        | eof ns0 =>
          rw [hp] at h
          simp only [consNode] at h
          cases h
          rw [maxDepth, show r + symDelta (Symbol.decrement d0) = r by simp [symDelta]]
          rw [ih1 ns0 hp r]
          simp only [astDepth]
          omega
        | err d' => rw [hp] at h; simp [consNode] at h
        | close ns0 dd rr => rw [hp] at h; simp [consNode] at h
      · intro ns d rest h r
        rw [parseBody_decrement] at h
        cases hp : parseBody rest0 with
        | eof ns0 => rw [hp] at h; simp [consNode] at h
        | err d' => rw [hp] at h; simp [consNode] at h
        | close ns0 dd rr =>
          rw [hp] at h
          simp only [consNode] at h
          cases h
          rw [maxDepth, show r + symDelta (Symbol.decrement d0) = r by simp [symDelta]]
          rw [ih2 ns0 d rest hp r]
          simp only [astDepth]
          omega
    | Symbol.output d0 :: rest0 =>
      have hr0 : rest0.length ≤ k := by simp at hlen; omega
      obtain ⟨ih1, ih2⟩ := ih rest0 hr0
      constructor
      · intro ns h r
        rw [parseBody_output] at h
        cases hp : parseBody rest0 with
        | eof ns0 =>
          rw [hp] at h
          simp only [consNode] at h
          cases h
          rw [maxDepth, show r + symDelta (Symbol.output d0) = r by simp [symDelta]]
          rw [ih1 ns0 hp r]
          simp only [astDepth]
          omega
        | err d' => rw [hp] at h; simp [consNode] at h
        | close ns0 dd rr => rw [hp] at h; simp [consNode] at h
      · intro ns d rest h r
        rw [parseBody_output] at h
        cases hp : parseBody rest0 with
        | eof ns0 => rw [hp] at h; simp [consNode] at h
        | err d' => rw [hp] at h; simp [consNode] at h
        | close ns0 dd rr =>
          rw [hp] at h
          simp only [consNode] at h
          cases h
          rw [maxDepth, show r + symDelta (Symbol.output d0) = r by simp [symDelta]]
          rw [ih2 ns0 d rest hp r]
          simp only [astDepth]
          omega
    | Symbol.input d0 :: rest0 =>
      have hr0 : rest0.length ≤ k := by simp at hlen; omega
      obtain ⟨ih1, ih2⟩ := ih rest0 hr0
      constructor
      · intro ns h r
        rw [parseBody_input] at h
        cases hp : parseBody rest0 with
        | eof ns0 =>
          rw [hp] at h
          simp only [consNode] at h
          cases h
          rw [maxDepth, show r + symDelta (Symbol.input d0) = r by simp [symDelta]]
          rw [ih1 ns0 hp r]
          simp only [astDepth]
          omega
        | err d' => rw [hp] at h; simp [consNode] at h
        | close ns0 dd rr => rw [hp] at h; simp [consNode] at h
      · intro ns d rest h r
        rw [parseBody_input] at h
        cases hp : parseBody rest0 with
        | eof ns0 => rw [hp] at h; simp [consNode] at h
        | err d' => rw [hp] at h; simp [consNode] at h
        | close ns0 dd rr =>
          rw [hp] at h
          simp only [consNode] at h
          cases h
          rw [maxDepth, show r + symDelta (Symbol.input d0) = r by simp [symDelta]]
          rw [ih2 ns0 d rest hp r]
          simp only [astDepth]
          omega

theorem digitChar_inj_lt : ∀ a, a < 10 → ∀ b, b < 10 →
    Nat.digitChar a = Nat.digitChar b → a = b := by
  intro a ha b hb h
  interval_cases a <;> interval_cases b <;> revert h <;> decide

theorem toDigitsCore_eq_reprChars :
    ∀ (f n : Nat) (acc : List Char), Nat.log 10 n < f →
    Nat.toDigitsCore 10 f n acc = reprChars n ++ acc := by
  intro f
  induction f with
  | zero => intro n acc h; omega
  | succ f ihf =>
    intro n acc h
    simp only [Nat.toDigitsCore]
    by_cases hn : n / 10 = 0
    · have hn10 : n < 10 := (Nat.div_eq_zero_iff (by norm_num)).1 hn
      rw [if_pos hn]
      by_cases hn0 : n = 0
      · subst hn0
        simp [reprChars]
        rfl
      · have : Nat.digits 10 n = [n] := by
          rw [Nat.digits_def' (by norm_num : (1:Nat) < 10) (Nat.pos_of_ne_zero hn0), hn]
          simp [Nat.mod_eq_of_lt hn10]
        simp [reprChars, hn0, this, Nat.mod_eq_of_lt hn10]
    · have h10 : 10 ≤ n :=
        Nat.le_of_not_lt (fun hlt => hn ((Nat.div_eq_zero_iff (by norm_num)).2 hlt))
      have hpos : 0 < Nat.log 10 n := Nat.log_pos (by norm_num) h10
      have hlog : Nat.log 10 (n / 10) < f := by
        rw [Nat.log_div_base]
        omega
      rw [if_neg hn, ihf (n / 10) (Nat.digitChar (n % 10) :: acc) hlog]
      have hne : n ≠ 0 := by
        intro h0; apply hn; rw [h0]
      have hdig : Nat.digits 10 n = n % 10 :: Nat.digits 10 (n / 10) :=
        Nat.digits_def' (by norm_num : (1:Nat) < 10) (Nat.pos_of_ne_zero hne)
      rw [show reprChars n = reprChars (n / 10) ++ [Nat.digitChar (n % 10)] by
        simp [reprChars, hne, hn, hdig]]
      simp

theorem map_digitChar_inj : ∀ (l1 l2 : List Nat), (∀ a ∈ l1, a < 10) →
    (∀ a ∈ l2, a < 10) → l1.map Nat.digitChar = l2.map Nat.digitChar → l1 = l2 := by
  intro l1
  induction l1 with
  | nil => intro l2 _ _ h; cases l2 <;> simp_all
  | cons a l1 ih =>
    intro l2 h1 h2 h
    cases l2 with
    | nil => simp at h
    | cons b l2 =>
      simp only [List.map_cons, List.cons.injEq] at h
      have hab : a = b :=
        digitChar_inj_lt a (h1 a (by simp)) b (h2 b (by simp)) h.1
      rw [hab, ih l2 (fun x hx => h1 x (by simp [hx])) (fun x hx => h2 x (by simp [hx])) h.2]

theorem reprChars_inj {m n : Nat} (h : reprChars m = reprChars n) : m = n := by
  have key : ∀ x : Nat, x ≠ 0 → reprChars x ≠ ['0'] := by
    intro x hx hcontra
    rw [reprChars, if_neg hx] at hcontra
    have hrev : (Nat.digits 10 x).map Nat.digitChar = ['0'] := by
      have := congrArg List.reverse hcontra
      simpa using this
    have hdig : Nat.digits 10 x = [0] := by
      apply map_digitChar_inj _ _ (fun a ha => Nat.digits_lt_base (by norm_num) ha)
        (by intro a ha; simp at ha; omega)
      simpa using hrev
    have := Nat.getLast_digit_ne_zero 10 hx
    rw [List.getLast_congr _ (by simp) hdig] at this
    simp at this
  by_cases hm : m = 0 <;> by_cases hn : n = 0
  · rw [hm, hn]
  · exfalso
    apply key n hn
    rw [← h, hm, reprChars]
    simp
  · exfalso
    apply key m hm
    rw [h, hn, reprChars]
    simp
  · rw [reprChars, if_neg hm, reprChars, if_neg hn] at h
    have hmap : (Nat.digits 10 m).map Nat.digitChar = (Nat.digits 10 n).map Nat.digitChar := by
      have := congrArg List.reverse h
      simpa using this
    have hdig : Nat.digits 10 m = Nat.digits 10 n :=
      map_digitChar_inj _ _ (fun a ha => Nat.digits_lt_base (by norm_num) ha)
        (fun a ha => Nat.digits_lt_base (by norm_num) ha) hmap
    calc m = Nat.ofDigits 10 (Nat.digits 10 m) := (Nat.ofDigits_digits 10 m).symm
      _ = Nat.ofDigits 10 (Nat.digits 10 n) := by rw [hdig]
      _ = n := Nat.ofDigits_digits 10 n

theorem natRepr_inj {m n : Nat} (h : Nat.repr m = Nat.repr n) : m = n := by
  have hchars : ∀ x : Nat, Nat.repr x = (reprChars x).asString := by
    intro x
    rw [Nat.repr, Nat.toDigits,
      toDigitsCore_eq_reprChars (x + 1) x []
        (Nat.lt_succ_of_le (Nat.log_le_self 10 x))]
    simp
  rw [hchars m, hchars n] at h
  have : reprChars m = reprChars n := by
    simpa [List.asString, String.ext_iff] using h
  exact reprChars_inj this

theorem intRepr_inj_nonneg {m n : Int} (hm : 0 ≤ m) (hn : 0 ≤ n)
    (h : Int.repr m = Int.repr n) : m = n := by
  obtain ⟨a, rfl⟩ := Int.eq_ofNat_of_zero_le hm
  obtain ⟨b, rfl⟩ := Int.eq_ofNat_of_zero_le hn
  have : Nat.repr a = Nat.repr b := h
  rw [natRepr_inj this]

theorem gen_ir_nodes_next_label :
    ∀ (k : Nat) (ns : List Node), sizeOf ns ≤ k →
    ∀ (mem_size : Nat) (ir : String) (st : IrState),
    (gen_ir_nodes mem_size ir st ns).2.next_label = st.next_label + mintWeight ns := by
  intro k
  induction k with
  | zero =>
    intro ns h
    match ns with
    | [] => intro ms ir st; simp [gen_ir_nodes, mintWeight]
    | n :: rest => simp only [List.cons.sizeOf_spec] at h; omega
  | succ k ih =>
    intro ns hsz ms ir st
    match ns with
    | [] => simp [gen_ir_nodes, mintWeight]
    | Node.incPtr v d :: rest =>
      have hr : sizeOf rest ≤ k := by simp only [List.cons.sizeOf_spec] at hsz; omega
      simp only [gen_ir_nodes]
      rw [ih rest hr]
      simp [IrState.ident, mintWeight]
      push_cast
      ring
    | Node.decPtr v d :: rest =>
      have hr : sizeOf rest ≤ k := by simp only [List.cons.sizeOf_spec] at hsz; omega
      simp only [gen_ir_nodes]
      rw [ih rest hr]
      simp [IrState.ident, mintWeight]
      push_cast
      ring
    | Node.increment v d :: rest =>
      have hr : sizeOf rest ≤ k := by simp only [List.cons.sizeOf_spec] at hsz; omega
      simp only [gen_ir_nodes]
      rw [ih rest hr]
      simp [IrState.ident, mintWeight]
      push_cast
      ring
    | Node.decrement v d :: rest =>
      have hr : sizeOf rest ≤ k := by simp only [List.cons.sizeOf_spec] at hsz; omega
      simp only [gen_ir_nodes]
      rw [ih rest hr]
      simp [IrState.ident, mintWeight]
      push_cast
      ring
    | Node.output d :: rest =>
      have hr : sizeOf rest ≤ k := by simp only [List.cons.sizeOf_spec] at hsz; omega
      simp only [gen_ir_nodes]
      rw [ih rest hr]
      simp [IrState.ident, mintWeight]
      push_cast
      ring
    | Node.input d :: rest =>
      have hr : sizeOf rest ≤ k := by simp only [List.cons.sizeOf_spec] at hsz; omega
      simp only [gen_ir_nodes]
      rw [ih rest hr]
      simp [IrState.ident, mintWeight]
      push_cast
      ring
    | Node.loop body d :: rest =>
      have hb : sizeOf body ≤ k := by
        simp only [List.cons.sizeOf_spec, Node.loop.sizeOf_spec] at hsz; omega
      have hr : sizeOf rest ≤ k := by
        simp only [List.cons.sizeOf_spec, Node.loop.sizeOf_spec] at hsz; omega
      simp only [gen_ir_nodes]
      rw [ih rest hr, ih body hb]
      simp [IrState.ident, IrState.label, mintWeight]
      push_cast
      ring

theorem mkIdent_inj {x y : Int} (hx : 0 ≤ x) (hy : 0 ≤ y)
    (h : mkIdent x = mkIdent y) : x = y := by
  apply intRepr_inj_nonneg hx hy
  apply String.ext
  have hd := congrArg String.data h
  simp only [mkIdent, String.data_append] at hd
  exact List.append_cancel_left hd

theorem mkLabel_inj {x y : Int} (hx : 0 ≤ x) (hy : 0 ≤ y)
    (h : mkLabel x = mkLabel y) : x = y := by
  apply intRepr_inj_nonneg hx hy
  apply String.ext
  have hd := congrArg String.data h
  simp only [mkLabel, String.data_append] at hd
  exact List.append_cancel_left hd

theorem mkIdent_ne_mkLabel (x y : Int) : mkIdent x ≠ mkLabel y := by
  intro h
  have hd := congrArg String.data h
  simp only [mkIdent, mkLabel, String.data_append] at hd
  simp at hd

theorem mintedNames_mem :
    ∀ (k : Nat) (ns : List Node), sizeOf ns ≤ k → ∀ (c : Int),
    ∀ name ∈ mintedNames c ns, ∃ m : Int, c < m ∧ m ≤ c + mintWeight ns ∧
      (name = mkIdent m ∨ name = mkLabel m) := by
  intro k
  induction k with
  | zero =>
    intro ns h
    match ns with
    | [] => intro c name hname; simp [mintedNames] at hname
    | n :: rest => simp only [List.cons.sizeOf_spec] at h; omega
  | succ k ih =>
    intro ns hsz c name hname
    match ns with
    | [] => simp [mintedNames] at hname
    | Node.incPtr v d :: rest =>
      have hr : sizeOf rest ≤ k := by simp only [List.cons.sizeOf_spec] at hsz; omega
      simp only [mintedNames, List.mem_cons] at hname
      rcases hname with rfl | rfl | hname
      · exact ⟨c + 1, by omega, by simp only [mintWeight]; push_cast; omega, Or.inl rfl⟩
      · exact ⟨c + 2, by omega, by simp only [mintWeight]; push_cast; omega, Or.inl rfl⟩
      · obtain ⟨m, hm1, hm2, hm3⟩ := ih rest hr (c + 2) name hname
        exact ⟨m, by omega, by revert hm2; simp only [mintWeight]; push_cast; omega, hm3⟩
    | Node.decPtr v d :: rest =>
      have hr : sizeOf rest ≤ k := by simp only [List.cons.sizeOf_spec] at hsz; omega
      simp only [mintedNames, List.mem_cons] at hname
      rcases hname with rfl | rfl | hname
      · exact ⟨c + 1, by omega, by simp only [mintWeight]; push_cast; omega, Or.inl rfl⟩
      · exact ⟨c + 2, by omega, by simp only [mintWeight]; push_cast; omega, Or.inl rfl⟩
      · obtain ⟨m, hm1, hm2, hm3⟩ := ih rest hr (c + 2) name hname
        exact ⟨m, by omega, by revert hm2; simp only [mintWeight]; push_cast; omega, hm3⟩
    | Node.increment v d :: rest =>
      have hr : sizeOf rest ≤ k := by simp only [List.cons.sizeOf_spec] at hsz; omega
      simp only [mintedNames, List.mem_cons] at hname
      rcases hname with rfl | rfl | rfl | rfl | hname
      · exact ⟨c + 1, by omega, by simp only [mintWeight]; push_cast; omega, Or.inl rfl⟩
      · exact ⟨c + 2, by omega, by simp only [mintWeight]; push_cast; omega, Or.inl rfl⟩
      · exact ⟨c + 3, by omega, by simp only [mintWeight]; push_cast; omega, Or.inl rfl⟩
      · exact ⟨c + 4, by omega, by simp only [mintWeight]; push_cast; omega, Or.inl rfl⟩
      · obtain ⟨m, hm1, hm2, hm3⟩ := ih rest hr (c + 4) name hname
        exact ⟨m, by omega, by revert hm2; simp only [mintWeight]; push_cast; omega, hm3⟩
    | Node.decrement v d :: rest =>
      have hr : sizeOf rest ≤ k := by simp only [List.cons.sizeOf_spec] at hsz; omega
      simp only [mintedNames, List.mem_cons] at hname
      rcases hname with rfl | rfl | rfl | rfl | hname
      · exact ⟨c + 1, by omega, by simp only [mintWeight]; push_cast; omega, Or.inl rfl⟩
      · exact ⟨c + 2, by omega, by simp only [mintWeight]; push_cast; omega, Or.inl rfl⟩
      · exact ⟨c + 3, by omega, by simp only [mintWeight]; push_cast; omega, Or.inl rfl⟩
      · exact ⟨c + 4, by omega, by simp only [mintWeight]; push_cast; omega, Or.inl rfl⟩
      · obtain ⟨m, hm1, hm2, hm3⟩ := ih rest hr (c + 4) name hname
        exact ⟨m, by omega, by revert hm2; simp only [mintWeight]; push_cast; omega, hm3⟩
    | Node.output d :: rest =>
      have hr : sizeOf rest ≤ k := by simp only [List.cons.sizeOf_spec] at hsz; omega
      simp only [mintedNames, List.mem_cons] at hname
      rcases hname with rfl | rfl | hname
      · exact ⟨c + 1, by omega, by simp only [mintWeight]; push_cast; omega, Or.inl rfl⟩
      · exact ⟨c + 2, by omega, by simp only [mintWeight]; push_cast; omega, Or.inl rfl⟩
      · obtain ⟨m, hm1, hm2, hm3⟩ := ih rest hr (c + 2) name hname
        exact ⟨m, by omega, by revert hm2; simp only [mintWeight]; push_cast; omega, hm3⟩
    | Node.input d :: rest =>
      have hr : sizeOf rest ≤ k := by simp only [List.cons.sizeOf_spec] at hsz; omega
      simp only [mintedNames, List.mem_cons] at hname
      rcases hname with rfl | rfl | hname
      · exact ⟨c + 1, by omega, by simp only [mintWeight]; push_cast; omega, Or.inl rfl⟩
      · exact ⟨c + 2, by omega, by simp only [mintWeight]; push_cast; omega, Or.inl rfl⟩
      · obtain ⟨m, hm1, hm2, hm3⟩ := ih rest hr (c + 2) name hname
        exact ⟨m, by omega, by revert hm2; simp only [mintWeight]; push_cast; omega, hm3⟩
    | Node.loop body d :: rest =>
      have hb : sizeOf body ≤ k := by
        simp only [List.cons.sizeOf_spec, Node.loop.sizeOf_spec] at hsz; omega
      have hr : sizeOf rest ≤ k := by
        simp only [List.cons.sizeOf_spec, Node.loop.sizeOf_spec] at hsz; omega
      simp only [mintedNames, List.mem_cons, List.mem_append] at hname
      rcases hname with rfl | rfl | rfl | rfl | rfl | rfl | rfl | hname | hname
      · exact ⟨c + 1, by omega, by simp only [mintWeight]; push_cast; omega, Or.inl rfl⟩
      · exact ⟨c + 2, by omega, by simp only [mintWeight]; push_cast; omega, Or.inl rfl⟩
      · exact ⟨c + 3, by omega, by simp only [mintWeight]; push_cast; omega, Or.inl rfl⟩
      · exact ⟨c + 4, by omega, by simp only [mintWeight]; push_cast; omega, Or.inl rfl⟩
      · exact ⟨c + 5, by omega, by simp only [mintWeight]; push_cast; omega, Or.inr rfl⟩
      · exact ⟨c + 6, by omega, by simp only [mintWeight]; push_cast; omega, Or.inr rfl⟩
      · exact ⟨c + 7, by omega, by simp only [mintWeight]; push_cast; omega, Or.inr rfl⟩
      · obtain ⟨m, hm1, hm2, hm3⟩ := ih body hb (c + 7) name hname
        exact ⟨m, by omega, by revert hm2; simp only [mintWeight]; push_cast; omega, hm3⟩
      · obtain ⟨m, hm1, hm2, hm3⟩ := ih rest hr (c + 7 + mintWeight body) name hname
        refine ⟨m, by omega, by revert hm2; simp only [mintWeight]; push_cast; omega, hm3⟩

theorem minted_ne_of_le {c' : Int} {ns : List Node} {x : Int} (hx : 0 ≤ x) (hle : x ≤ c') :
    ∀ name ∈ mintedNames c' ns, mkIdent x ≠ name ∧ mkLabel x ≠ name := by
  intro name hname
  obtain ⟨m, hm1, hm2, hm3⟩ := mintedNames_mem (sizeOf ns) ns le_rfl c' name hname
  have hm0 : 0 ≤ m := by omega
  rcases hm3 with rfl | rfl
  · constructor
    · intro h
      have := mkIdent_inj hx hm0 h
      omega
    · exact fun h => mkIdent_ne_mkLabel m x h.symm
  · constructor
    · exact mkIdent_ne_mkLabel x m
    · intro h
      have := mkLabel_inj hx hm0 h
      omega

theorem mintedNames_pairwise :
    ∀ (k : Nat) (ns : List Node), sizeOf ns ≤ k → ∀ (c : Int), 0 ≤ c →
    List.Pairwise (fun a b : String => a ≠ b) (mintedNames c ns) := by
  intro k
  induction k with
  | zero =>
    intro ns h c hc
    match ns with
    | [] => simp [mintedNames]
    | n :: rest => simp only [List.cons.sizeOf_spec] at h; omega
  | succ k ih =>
    intro ns hsz c hc
    match ns with
    | [] => simp [mintedNames]
    | Node.incPtr v d :: rest =>
      have hr : sizeOf rest ≤ k := by simp only [List.cons.sizeOf_spec] at hsz; omega
      simp only [mintedNames]
      refine List.Pairwise.cons ?_ (List.Pairwise.cons ?_ (ih rest hr (c + 2) (by omega)))
      · intro b hb
        rcases List.mem_cons.1 hb with rfl | hb
        · exact fun h => by have := mkIdent_inj (by omega) (by omega) h; omega
        exact (minted_ne_of_le (by omega) (by omega) b hb).1
      · intro b hb
        exact (minted_ne_of_le (by omega) (by omega) b hb).1
    | Node.decPtr v d :: rest =>
      have hr : sizeOf rest ≤ k := by simp only [List.cons.sizeOf_spec] at hsz; omega
      simp only [mintedNames]
      refine List.Pairwise.cons ?_ (List.Pairwise.cons ?_ (ih rest hr (c + 2) (by omega)))
      · intro b hb
        rcases List.mem_cons.1 hb with rfl | hb
        · exact fun h => by have := mkIdent_inj (by omega) (by omega) h; omega
        exact (minted_ne_of_le (by omega) (by omega) b hb).1
      · intro b hb
        exact (minted_ne_of_le (by omega) (by omega) b hb).1
    | Node.output d :: rest =>
      have hr : sizeOf rest ≤ k := by simp only [List.cons.sizeOf_spec] at hsz; omega
      simp only [mintedNames]
      refine List.Pairwise.cons ?_ (List.Pairwise.cons ?_ (ih rest hr (c + 2) (by omega)))
      · intro b hb
        rcases List.mem_cons.1 hb with rfl | hb
        · exact fun h => by have := mkIdent_inj (by omega) (by omega) h; omega
        exact (minted_ne_of_le (by omega) (by omega) b hb).1
      · intro b hb
        exact (minted_ne_of_le (by omega) (by omega) b hb).1
    | Node.input d :: rest =>
      have hr : sizeOf rest ≤ k := by simp only [List.cons.sizeOf_spec] at hsz; omega
      simp only [mintedNames]
      refine List.Pairwise.cons ?_ (List.Pairwise.cons ?_ (ih rest hr (c + 2) (by omega)))
      · intro b hb
        rcases List.mem_cons.1 hb with rfl | hb
        · exact fun h => by have := mkIdent_inj (by omega) (by omega) h; omega
        exact (minted_ne_of_le (by omega) (by omega) b hb).1
      · intro b hb
        exact (minted_ne_of_le (by omega) (by omega) b hb).1
    | Node.increment v d :: rest =>
      have hr : sizeOf rest ≤ k := by simp only [List.cons.sizeOf_spec] at hsz; omega
      simp only [mintedNames]
      refine List.Pairwise.cons ?_ (List.Pairwise.cons ?_ (List.Pairwise.cons ?_
        (List.Pairwise.cons ?_ (ih rest hr (c + 4) (by omega)))))
      · intro b hb
        rcases List.mem_cons.1 hb with rfl | hb
        · exact fun h => by have := mkIdent_inj (by omega) (by omega) h; omega
        rcases List.mem_cons.1 hb with rfl | hb
        · exact fun h => by have := mkIdent_inj (by omega) (by omega) h; omega
        rcases List.mem_cons.1 hb with rfl | hb
        · exact fun h => by have := mkIdent_inj (by omega) (by omega) h; omega
        exact (minted_ne_of_le (by omega) (by omega) b hb).1
      · intro b hb
        rcases List.mem_cons.1 hb with rfl | hb
        · exact fun h => by have := mkIdent_inj (by omega) (by omega) h; omega
        rcases List.mem_cons.1 hb with rfl | hb
        · exact fun h => by have := mkIdent_inj (by omega) (by omega) h; omega
        exact (minted_ne_of_le (by omega) (by omega) b hb).1
      · intro b hb
        rcases List.mem_cons.1 hb with rfl | hb
        · exact fun h => by have := mkIdent_inj (by omega) (by omega) h; omega
        exact (minted_ne_of_le (by omega) (by omega) b hb).1
      · intro b hb
        exact (minted_ne_of_le (by omega) (by omega) b hb).1
    | Node.decrement v d :: rest =>
      have hr : sizeOf rest ≤ k := by simp only [List.cons.sizeOf_spec] at hsz; omega
      simp only [mintedNames]
      refine List.Pairwise.cons ?_ (List.Pairwise.cons ?_ (List.Pairwise.cons ?_
        (List.Pairwise.cons ?_ (ih rest hr (c + 4) (by omega)))))
      · intro b hb
        rcases List.mem_cons.1 hb with rfl | hb
        · exact fun h => by have := mkIdent_inj (by omega) (by omega) h; omega
        rcases List.mem_cons.1 hb with rfl | hb
        · exact fun h => by have := mkIdent_inj (by omega) (by omega) h; omega
        rcases List.mem_cons.1 hb with rfl | hb
        · exact fun h => by have := mkIdent_inj (by omega) (by omega) h; omega
        exact (minted_ne_of_le (by omega) (by omega) b hb).1
      · intro b hb
        rcases List.mem_cons.1 hb with rfl | hb
        · exact fun h => by have := mkIdent_inj (by omega) (by omega) h; omega
        rcases List.mem_cons.1 hb with rfl | hb
        · exact fun h => by have := mkIdent_inj (by omega) (by omega) h; omega
        exact (minted_ne_of_le (by omega) (by omega) b hb).1
      · intro b hb
        rcases List.mem_cons.1 hb with rfl | hb
        · exact fun h => by have := mkIdent_inj (by omega) (by omega) h; omega
        exact (minted_ne_of_le (by omega) (by omega) b hb).1
      · intro b hb
        exact (minted_ne_of_le (by omega) (by omega) b hb).1
    | Node.loop body d :: rest =>
      have hb : sizeOf body ≤ k := by
        simp only [List.cons.sizeOf_spec, Node.loop.sizeOf_spec] at hsz; omega
      have hr : sizeOf rest ≤ k := by
        simp only [List.cons.sizeOf_spec, Node.loop.sizeOf_spec] at hsz; omega
      simp only [mintedNames]
      have happ : List.Pairwise (fun a b : String => a ≠ b)
          (mintedNames (c + 7) body ++ mintedNames (c + 7 + mintWeight body) rest) := by
        rw [List.pairwise_append]
        refine ⟨ih body hb (c + 7) (by omega), ih rest hr (c + 7 + mintWeight body) (by
          have : (0 : Int) ≤ mintWeight body := Int.ofNat_nonneg _
          omega), ?_⟩
        intro a ha b hbm
        obtain ⟨ma, h1, h2, h3⟩ := mintedNames_mem (sizeOf body) body le_rfl (c + 7) a ha
        rcases h3 with rfl | rfl
        · exact (minted_ne_of_le (by omega) (by omega) b hbm).1
        · exact (minted_ne_of_le (by omega) (by omega) b hbm).2
      have hmemapp : ∀ b ∈ mintedNames (c + 7) body ++
          mintedNames (c + 7 + mintWeight body) rest,
          ∀ x : Int, 0 ≤ x → x ≤ c + 7 → (mkIdent x ≠ b ∧ mkLabel x ≠ b) := by
        intro b hbm x hx hxle
        rcases List.mem_append.1 hbm with hbm | hbm
        · exact minted_ne_of_le hx hxle b hbm
        · refine minted_ne_of_le hx ?_ b hbm
          have : (0 : Int) ≤ mintWeight body := Int.ofNat_nonneg _
          omega
      refine List.Pairwise.cons ?_ (List.Pairwise.cons ?_ (List.Pairwise.cons ?_
        (List.Pairwise.cons ?_ (List.Pairwise.cons ?_ (List.Pairwise.cons ?_
        (List.Pairwise.cons ?_ happ))))))
      · intro b hbm
        rcases List.mem_cons.1 hbm with rfl | hbm
        · exact fun h => by have := mkIdent_inj (by omega) (by omega) h; omega
        rcases List.mem_cons.1 hbm with rfl | hbm
        · exact fun h => by have := mkIdent_inj (by omega) (by omega) h; omega
        rcases List.mem_cons.1 hbm with rfl | hbm
        · exact fun h => by have := mkIdent_inj (by omega) (by omega) h; omega
        rcases List.mem_cons.1 hbm with rfl | hbm
        · exact mkIdent_ne_mkLabel _ _
        rcases List.mem_cons.1 hbm with rfl | hbm
        · exact mkIdent_ne_mkLabel _ _
        rcases List.mem_cons.1 hbm with rfl | hbm
        · exact mkIdent_ne_mkLabel _ _
        exact (hmemapp b hbm (c + 1) (by omega) (by omega)).1
      · intro b hbm
        rcases List.mem_cons.1 hbm with rfl | hbm
        · exact fun h => by have := mkIdent_inj (by omega) (by omega) h; omega
        rcases List.mem_cons.1 hbm with rfl | hbm
        · exact fun h => by have := mkIdent_inj (by omega) (by omega) h; omega
        rcases List.mem_cons.1 hbm with rfl | hbm
        · exact mkIdent_ne_mkLabel _ _
        rcases List.mem_cons.1 hbm with rfl | hbm
        · exact mkIdent_ne_mkLabel _ _
        rcases List.mem_cons.1 hbm with rfl | hbm
        · exact mkIdent_ne_mkLabel _ _
        exact (hmemapp b hbm (c + 2) (by omega) (by omega)).1
      · intro b hbm
        rcases List.mem_cons.1 hbm with rfl | hbm
        · exact fun h => by have := mkIdent_inj (by omega) (by omega) h; omega
        rcases List.mem_cons.1 hbm with rfl | hbm
        · exact mkIdent_ne_mkLabel _ _
        rcases List.mem_cons.1 hbm with rfl | hbm
        · exact mkIdent_ne_mkLabel _ _
        rcases List.mem_cons.1 hbm with rfl | hbm
        · exact mkIdent_ne_mkLabel _ _
        exact (hmemapp b hbm (c + 3) (by omega) (by omega)).1
      · intro b hbm
        rcases List.mem_cons.1 hbm with rfl | hbm
        · exact mkIdent_ne_mkLabel _ _
        rcases List.mem_cons.1 hbm with rfl | hbm
        · exact mkIdent_ne_mkLabel _ _
        rcases List.mem_cons.1 hbm with rfl | hbm
        · exact mkIdent_ne_mkLabel _ _
        exact (hmemapp b hbm (c + 4) (by omega) (by omega)).1
      · intro b hbm
        rcases List.mem_cons.1 hbm with rfl | hbm
        · exact fun h => by have := mkLabel_inj (by omega) (by omega) h; omega
        rcases List.mem_cons.1 hbm with rfl | hbm
        · exact fun h => by have := mkLabel_inj (by omega) (by omega) h; omega
        exact (hmemapp b hbm (c + 5) (by omega) (by omega)).2
      · intro b hbm
        rcases List.mem_cons.1 hbm with rfl | hbm
        · exact fun h => by have := mkLabel_inj (by omega) (by omega) h; omega
        exact (hmemapp b hbm (c + 6) (by omega) (by omega)).2
      · intro b hbm
        exact (hmemapp b hbm (c + 7) (by omega) (by omega)).2

theorem memTouching_oob (fuel : Nat) (n : Node) (s : InterpState)
    (hm : memTouching n = true) (h : s.mem_size ≤ s.ptr) :
    execNode fuel n s = .oob (debugOf n)
      { s with input := if kindOf n = NK.input then (getchar s.input).2 else s.input } := by
  have hoob : s.is_oob = true := by
    simp [InterpState.is_oob]
    omega
  cases n with
  | incPtr v d => simp [memTouching] at hm
  | decPtr v d => simp [memTouching] at hm
  | increment v d => rw [execNode_increment, if_pos hoob]; simp [debugOf, kindOf]
  | decrement v d => rw [execNode_decrement, if_pos hoob]; simp [debugOf, kindOf]
  | output d => rw [execNode_output, if_pos hoob]; simp [debugOf, kindOf]
  | input d => rw [execNode_input, if_pos hoob]; simp [debugOf, kindOf]
  | loop body d => rw [execNode_loop, if_pos hoob]; simp [debugOf, kindOf]

/-- Claim C1, counterexample: the claim asserts that *any* instruction
kind faults with `OutOfBounds` when `cursor ≥ size`, but executing an
`IncPtr` node with the cursor at the size boundary (`ptr = 0`,
`mem_size = 0`) succeeds: pointer motion is never bounds-checked. -/
theorem C1_counterexample :
    sEx.mem_size ≤ sEx.ptr ∧
    execNode 0 (Node.incPtr 1 dEx) sEx = .ok { sEx with ptr := 1 } := by
  constructor
  · decide
  · rw [execNode_incPtr]
    norm_num [sEx, USIZE]

/-- Claim C1, amended: for every *memory-touching* node (`Increment`,
`Decrement`, `Output`, `Input`, `Loop` — everything except bare pointer
motion), execution with `cursor ≥ size` returns `OutOfBounds` carrying
that node's own `DebugInfo`; only `Input` additionally consumes a byte
of standard input first. -/
theorem C1_theorem (fuel : Nat) (n : Node) (s : InterpState)
    (hm : memTouching n = true) (h : s.mem_size ≤ s.ptr) :
    execNode fuel n s = .oob (debugOf n)
      { s with input := if kindOf n = NK.input then (getchar s.input).2 else s.input } :=
  memTouching_oob fuel n s hm h

/-- Claim C1, witness: the amended theorem applied to an `Output` node at
the boundary state. -/
theorem C1_witness :
    memTouching (Node.output dEx) = true ∧ sEx.mem_size ≤ sEx.ptr ∧
    execNode 0 (Node.output dEx) sEx = .oob (debugOf (Node.output dEx))
      { sEx with input :=
          if kindOf (Node.output dEx) = NK.input then (getchar sEx.input).2 else sEx.input } :=
  ⟨by decide, by decide, C1_theorem 0 (Node.output dEx) sEx (by decide) (by decide)⟩

/-- Claim C2: `Ast.parse` fails with `UnmatchedLoop` exactly as the
reference bracket matcher `scanBrackets` (written to the spec's words)
prescribes — end of input inside an open loop is reported at the
innermost unmatched `[`'s position, a stray `]` at its own position —
and otherwise parsing succeeds; by the `Except` result type exactly one
error is surfaced and no partial AST escapes. -/
theorem C2_theorem (syms : List Symbol) :
    (∀ d, Ast.parse syms = .error d ↔ scanBrackets syms [] = some d) ∧
    ((∃ ns, Ast.parse syms = .ok ns) ↔ scanBrackets syms [] = none) := by
  have h := scanBrackets_eq_parseBody syms.length syms le_rfl []
  cases hpb : parseBody syms with
  | eof ns =>
    rw [hpb] at h
    simp only [List.head?] at h
    constructor
    · intro d
      constructor
      · intro hparse
        rw [Ast.parse, hpb] at hparse
        simp at hparse
      · intro hscan
        rw [h] at hscan
        simp at hscan
    · constructor
      · intro _
        exact h
      · intro _
        exact ⟨ns, by rw [Ast.parse, hpb]⟩
  | close ns0 d0 rest0 =>
    rw [hpb] at h
    constructor
    · intro d
      constructor
      · intro hparse
        rw [Ast.parse, hpb] at hparse
        simp only [Except.error.injEq] at hparse
        rw [h, hparse]
      · intro hscan
        rw [h] at hscan
        simp only [Option.some.injEq] at hscan
        rw [Ast.parse, hpb, hscan]
    · constructor
      · intro ⟨ns, hns⟩
        rw [Ast.parse, hpb] at hns
        simp at hns
      · intro hscan
        rw [h] at hscan
        simp at hscan
  | err d0 =>
    rw [hpb] at h
    constructor
    · intro d
      constructor
      · intro hparse
        rw [Ast.parse, hpb] at hparse
        simp only [Except.error.injEq] at hparse
        rw [h, hparse]
      · intro hscan
        rw [h] at hscan
        simp only [Option.some.injEq] at hscan
        rw [Ast.parse, hpb, hscan]
    · constructor
      · intro ⟨ns, hns⟩
        rw [Ast.parse, hpb] at hns
        simp at hns
      · intro hscan
        rw [h] at hscan
        simp at hscan

/-- Claim C3: `Input` consumes one byte of standard input *before* the
bounds check — on a bounds violation the result is `OutOfBounds` at the
`Input` node's position with the byte already consumed (never rolled
back), while `Output` bounds-checks first and leaves the streams
untouched on failure; in the non-faulting case the consumed byte is
stored through the `as u8` cast. -/
theorem C3_theorem (fuel : Nat) (d : DebugInfo) (s : InterpState) :
    (s.mem_size ≤ s.ptr →
      execNode fuel (Node.input d) s = .oob d { s with input := (getchar s.input).2 } ∧
      execNode fuel (Node.output d) s = .oob d s) ∧
    (¬ s.mem_size ≤ s.ptr →
      execNode fuel (Node.input d) s =
        .ok { s with input := (getchar s.input).2,
                     mem := s.mem.set s.ptr (asU8 (getchar s.input).1) }) := by
  constructor
  · intro h
    have hoob : s.is_oob = true := by simp [InterpState.is_oob]; omega
    constructor
    · rw [execNode_input, if_pos hoob]
    · rw [execNode_output, if_pos hoob]
  · intro h
    have hoob : s.is_oob = false := by simp [InterpState.is_oob]; omega
    rw [execNode_input, hoob]
    simp

/-- Claim C3, witness: `,` at the size boundary still consumes the first
input byte `7` (leaving `[8]`) even though the result is `OutOfBounds`. -/
theorem C3_witness :
    sEx.mem_size ≤ sEx.ptr ∧
    execNode 0 (Node.input dEx) sEx = .oob dEx { sEx with input := [8] } :=
  ⟨by decide, ((C3_theorem 0 dEx sEx).1 (by decide)).1⟩

/-- Claim C4: the optimizer is idempotent — re-optimizing an optimized
node list (recursively, loop bodies included) is a no-op. -/
theorem C4_theorem (ns : List Node) :
    optimize_nodes (optimize_nodes ns) = optimize_nodes ns :=
  optimize_nodes_idem_aux (sizeOf ns) ns le_rfl

/-- Claim C5: a run of `N` (1 ≤ N ≤ 300) identical delta symbols parses
to `N` unit nodes and optimizes to exactly one node whose count is
`N mod 256` for cell deltas (`+`/`-`) and exactly `N` for pointer deltas
(`>`/`<`), carrying the first symbol's position. -/
theorem C5_theorem (N : Nat) (d : DebugInfo) (ds : List DebugInfo)
    (h1 : 1 ≤ N) (h2 : N ≤ 300) (hlen : ds.length + 1 = N) :
    (Ast.parse ((d :: ds).map Symbol.increment) =
        .ok ((d :: ds).map fun d' => Node.increment 1 d') ∧
      optimize_nodes ((d :: ds).map fun d' => Node.increment 1 d') =
        [Node.increment (N % 256) d]) ∧
    (Ast.parse ((d :: ds).map Symbol.decrement) =
        .ok ((d :: ds).map fun d' => Node.decrement 1 d') ∧
      optimize_nodes ((d :: ds).map fun d' => Node.decrement 1 d') =
        [Node.decrement (N % 256) d]) ∧
    (Ast.parse ((d :: ds).map Symbol.incPtr) =
        .ok ((d :: ds).map fun d' => Node.incPtr 1 d') ∧
      optimize_nodes ((d :: ds).map fun d' => Node.incPtr 1 d') = [Node.incPtr N d]) ∧
    (Ast.parse ((d :: ds).map Symbol.decPtr) =
        .ok ((d :: ds).map fun d' => Node.decPtr 1 d') ∧
      optimize_nodes ((d :: ds).map fun d' => Node.decPtr 1 d') = [Node.decPtr N d]) := by
  have hNU : N % USIZE = N := Nat.mod_eq_of_lt (by simp only [USIZE]; omega)
  have hN : 1 + ds.length = N := by omega
  refine ⟨⟨?_, ?_⟩, ⟨?_, ?_⟩, ⟨?_, ?_⟩, ⟨?_, ?_⟩⟩
  · rw [Ast.parse, parseBody_map_increment]
  · rw [List.map_cons, optimize_nodes_increment,
      collectIncrement_units (by simp [U8]) ds]
    rw [optimize_nodes_nil, hN]
    rfl
  · rw [Ast.parse, parseBody_map_decrement]
  · rw [List.map_cons, optimize_nodes_decrement,
      collectDecrement_units (by simp [U8]) ds]
    rw [optimize_nodes_nil, hN]
    rfl
  · rw [Ast.parse, parseBody_map_incPtr]
  · rw [List.map_cons, optimize_nodes_incPtr,
      collectIncPtr_units (by simp [USIZE]) ds]
    rw [optimize_nodes_nil, hN, hNU]
  · rw [Ast.parse, parseBody_map_decPtr]
  · rw [List.map_cons, optimize_nodes_decPtr,
      collectDecPtr_units (by simp [USIZE]) ds]
    rw [optimize_nodes_nil, hN, hNU]

/-- Claim C5, witness: a run of three `+` symbols optimizes to the single
node `Increment(3)` at the first symbol's position. -/
theorem C5_witness :
    Ast.parse ([dEx, dEx, dEx].map Symbol.increment) =
      .ok ([dEx, dEx, dEx].map fun d' => Node.increment 1 d') ∧
    optimize_nodes ([dEx, dEx, dEx].map fun d' => Node.increment 1 d') =
      [Node.increment (3 % 256) dEx] :=
  (C5_theorem 3 dEx [dEx, dEx] (by decide) (by decide) (by decide)).1

/-- Claim C6: for every bracket-balanced symbol sequence (the reference
matcher finds no unmatched bracket), parsing succeeds and the `Loop`
nesting depth of the resulting AST equals the bracket nesting depth of
the source. -/
theorem C6_theorem (syms : List Symbol) (h : scanBrackets syms [] = none) :
    ∃ ns, Ast.parse syms = .ok ns ∧ maxDepth 0 syms = (astDepth ns : Int) := by
  have hcorr := scanBrackets_eq_parseBody syms.length syms le_rfl []
  cases hpb : parseBody syms with
  | eof ns =>
    refine ⟨ns, by rw [Ast.parse, hpb], ?_⟩
    have := (parseBody_maxDepth syms.length syms le_rfl).1 ns hpb 0
    rw [this]
    have : (0 : Int) ≤ astDepth ns := Int.ofNat_nonneg _
    omega
  | close ns0 d0 rest0 =>
    rw [hpb] at hcorr
    rw [h] at hcorr
    simp at hcorr
  | err d0 =>
    rw [hpb] at hcorr
    rw [h] at hcorr
    simp at hcorr

/-- Claim C6, witness: `[[]][]` is balanced, parses, and has loop nesting
depth 2 equal to its bracket nesting depth. -/
theorem C6_witness :
    ∃ ns, Ast.parse [Symbol.openBlock dEx, Symbol.openBlock dEx, Symbol.closeBlock dEx,
        Symbol.closeBlock dEx, Symbol.openBlock dEx, Symbol.closeBlock dEx] = .ok ns ∧
      maxDepth 0 [Symbol.openBlock dEx, Symbol.openBlock dEx, Symbol.closeBlock dEx,
        Symbol.closeBlock dEx, Symbol.openBlock dEx, Symbol.closeBlock dEx] =
        (astDepth ns : Int) :=
  C6_theorem _ (by decide)

/-- Claim C7: executing `IncPtr`/`DecPtr` never faults and only replaces
the cursor by its wraparound (`mod 2^64`) sum/difference with the count
— memory, size and both streams are untouched. -/
theorem C7_theorem (fuel v : Nat) (d : DebugInfo) (s : InterpState) :
    execNode fuel (Node.incPtr v d) s = .ok { s with ptr := (s.ptr + v) % USIZE } ∧
    execNode fuel (Node.decPtr v d) s =
      .ok { s with ptr := (s.ptr + (USIZE - v % USIZE)) % USIZE } :=
  ⟨execNode_incPtr fuel v d s, execNode_decPtr fuel v d s⟩

/-- Claim C8, counterexample: a run of 256 `+` nodes coalesces to the
single node `Increment(0)` — a *zero-count* coalesced delta node, which
the claim asserts can never exist. -/
theorem C8_counterexample :
    optimize_nodes (List.replicate 256 (Node.increment 1 dEx)) = [Node.increment 0 dEx] := by
  rw [List.replicate_succ, optimize_nodes_increment]
  rw [show List.replicate 255 (Node.increment 1 dEx) =
      (List.replicate 255 dEx).map fun d' => Node.increment 1 d' by
    rw [List.map_replicate]]
  rw [collectIncrement_units (by simp [U8]) (List.replicate 255 dEx)]
  rw [optimize_nodes_nil]
  norm_num [U8]

/-- Claim C8, amended: every coalesced run becomes exactly one node whose
count is the *wraparound* sum of the run (the run length modulo 256 for
cell deltas and modulo 2^64 for pointer deltas — zero exactly when the
length is a multiple of the width), seeded from and carrying the
`DebugInfo` of the first node of the run. -/
theorem C8_theorem (d : DebugInfo) (ds : List DebugInfo) :
    optimize_nodes (Node.increment 1 d :: (ds.map fun d' => Node.increment 1 d')) =
      [Node.increment ((1 + ds.length) % U8) d] ∧
    optimize_nodes (Node.decrement 1 d :: (ds.map fun d' => Node.decrement 1 d')) =
      [Node.decrement ((1 + ds.length) % U8) d] ∧
    optimize_nodes (Node.incPtr 1 d :: (ds.map fun d' => Node.incPtr 1 d')) =
      [Node.incPtr ((1 + ds.length) % USIZE) d] ∧
    optimize_nodes (Node.decPtr 1 d :: (ds.map fun d' => Node.decPtr 1 d')) =
      [Node.decPtr ((1 + ds.length) % USIZE) d] := by
  refine ⟨?_, ?_, ?_, ?_⟩
  · rw [optimize_nodes_increment, collectIncrement_units (by simp [U8]) ds,
      optimize_nodes_nil]
  · rw [optimize_nodes_decrement, collectDecrement_units (by simp [U8]) ds,
      optimize_nodes_nil]
  · rw [optimize_nodes_incPtr, collectIncPtr_units (by simp [USIZE]) ds,
      optimize_nodes_nil]
  · rw [optimize_nodes_decPtr, collectDecPtr_units (by simp [USIZE]) ds,
      optimize_nodes_nil]

/-- Claim C9: every mint pre-increments the single shared counter by one
(`gen_ir_nodes` advances it by exactly the total mint count, never
resetting), all names minted during one emission from a nonnegative
counter are pairwise distinct, and a `Loop` node mints exactly three
labels (header, body, end) — pairwise distinct and, by the pairwise
distinctness of the whole emission, never reused by nested or sibling
loops. -/
theorem C9_theorem (mem_size : Nat) (ir : String) (st : IrState) (ns : List Node)
    (c : Int) (hc : 0 ≤ c) :
    ((IrState.ident st).2.next_label = st.next_label + 1 ∧
      (IrState.label st).2.next_label = st.next_label + 1) ∧
    (gen_ir_nodes mem_size ir st ns).2.next_label = st.next_label + mintWeight ns ∧
    List.Pairwise (fun a b : String => a ≠ b) (mintedNames c ns) ∧
    (∀ body d rest, mintedNames c (Node.loop body d :: rest) =
        mkIdent (c + 1) :: mkIdent (c + 2) :: mkIdent (c + 3) :: mkIdent (c + 4) ::
        mkLabel (c + 5) :: mkLabel (c + 6) :: mkLabel (c + 7) ::
        (mintedNames (c + 7) body ++ mintedNames (c + 7 + mintWeight body) rest) ∧
      (mkLabel (c + 5) ≠ mkLabel (c + 6) ∧ mkLabel (c + 5) ≠ mkLabel (c + 7) ∧
        mkLabel (c + 6) ≠ mkLabel (c + 7))) := by
  refine ⟨⟨rfl, rfl⟩, gen_ir_nodes_next_label (sizeOf ns) ns le_rfl mem_size ir st,
    mintedNames_pairwise (sizeOf ns) ns le_rfl c hc, ?_⟩
  intro body d rest
  refine ⟨by rw [mintedNames], ?_, ?_, ?_⟩
  · intro h
    have := mkLabel_inj (by omega) (by omega) h
    omega
  · intro h
    have := mkLabel_inj (by omega) (by omega) h
    omega
  · intro h
    have := mkLabel_inj (by omega) (by omega) h
    omega

/-- Claim C9, witness: emitting a single empty loop from a fresh state
advances the counter by its seven mints, and the three labels `l5`, `l6`,
`l7` are pairwise distinct. -/
theorem C9_witness :
    (0 : Int) ≤ 0 ∧
    (gen_ir_nodes 5 "" IrState.new [Node.loop [] dEx]).2.next_label =
      IrState.new.next_label + mintWeight [Node.loop [] dEx] ∧
    List.Pairwise (fun a b : String => a ≠ b) (mintedNames 0 [Node.loop [] dEx]) :=
  ⟨by decide,
    (C9_theorem 5 "" IrState.new [Node.loop [] dEx] 0 (by decide)).2.1,
    (C9_theorem 5 "" IrState.new [Node.loop [] dEx] 0 (by decide)).2.2.1⟩

/-- Claim C10: interpreting the optimized AST is observationally
equivalent to interpreting the unoptimized AST — for every fuel, node
list and state (memory, cursor, size, and both standard streams), the
results are identical: same success/`OutOfBounds`-at-the-same-position
outcome, same input consumed, same output written, same final state. -/
theorem C10_theorem (fuel : Nat) (ns : List Node) (s : InterpState) :
    execNodes fuel (optimize_nodes ns) s = execNodes fuel ns s :=
  execNodes_optimize_aux fuel (sizeOf ns) ns le_rfl s

end BF
